import Mathlib

/-!
Verification of the tool-dispatch surface of a small MCP utility server
(`src/main.py`).  Python strings are modelled as `List Char`, tool result
envelopes as ordered string-keyed association lists, and the external world
(filesystem, process environment, subprocess execution, clock) as explicit
state or oracle arguments.  Each tool handler of the source is translated
into an executable Lean definition, and the specification's claims are
settled as theorems about those definitions.
-/

/-- A Python `str`: a sequence of Unicode scalar values. -/
abbrev PyStr := List Char

/-- Embed a Lean string literal as a `PyStr`. -/
def pys (s : String) : PyStr := s.data

/-- ASCII whitespace recognised by Python `str.split()` / `str.strip()`
(we model the ASCII subset of Python's whitespace set). -/
def isPyWs (c : Char) : Bool :=
  c = ' ' || c = '\t' || c = '\n' || c = '\x0d' || c = '\x0b' || c = '\x0c'

/-- Decimal digit test (ASCII), as used by the parsers below. -/
def isDigitC (c : Char) : Bool := '0' ≤ c && c ≤ '9'

/-- Value of an ASCII decimal digit. -/
def digitVal (c : Char) : Nat := c.toNat - '0'.toNat

/-- Python `str.lower` restricted to ASCII case mapping. -/
def lowerC (c : Char) : Char :=
  if 'A' ≤ c && c ≤ 'Z' then Char.ofNat (c.toNat + 32) else c

/-- Python `str.upper` restricted to ASCII case mapping. -/
def upperC (c : Char) : Char :=
  if 'a' ≤ c && c ≤ 'z' then Char.ofNat (c.toNat - 32) else c

/-- ASCII letter test (for the `title` case state machine). -/
def isAlphaC (c : Char) : Bool :=
  (97 ≤ c.toNat && c.toNat - 97 < 26) || (65 ≤ c.toNat && c.toNat - 65 < 26)

/-- `s.lower()`. -/
def lowerStr (s : PyStr) : PyStr := s.map lowerC

/-- `s.upper()`. -/
def upperStr (s : PyStr) : PyStr := s.map upperC

/-- Does `n` occur at the start of `h`? (Python `str.startswith`.) -/
def startsWithL : PyStr → PyStr → Bool
  | [], _ => true
  | _ :: _, [] => false
  | a :: n, b :: h => a = b && startsWithL n h

/-- Python substring test `n in h` (contiguous occurrence). -/
def containsSub (n : PyStr) (h : PyStr) : Bool :=
  startsWithL n h ||
    (match h with
     | [] => false
     | _ :: h' => containsSub n h')

/-- `str.split()` with no argument: split on whitespace runs, drop empties. -/
def pySplitWs : PyStr → List PyStr
  | [] => []
  | c :: s =>
    if isPyWs c then pySplitWs s
    else (c :: s.takeWhile (fun x => !isPyWs x)) ::
      pySplitWs (s.dropWhile (fun x => !isPyWs x))
termination_by s => s.length
decreasing_by
  all_goals simp only [List.length_cons]
  all_goals try omega
  have h : ∀ l : List Char,
      (List.dropWhile (fun x => !isPyWs x) l).length ≤ l.length := by
    intro l
    induction l with
    | nil => simp
    | cons a t ih =>
      rw [List.dropWhile_cons]
      split
      · simp only [List.length_cons]; omega
      · simp
  exact Nat.lt_succ_of_le (h _)

/-- `str.split(".")`: split at every `'.'`, keeping empty segments. -/
def splitDot : PyStr → List PyStr
  | [] => [[]]
  | c :: s =>
    if c = '.' then [] :: splitDot s
    else
      match splitDot s with
      | t :: ts => (c :: t) :: ts
      | [] => [[c]]

/-- `str.splitlines()` over the common terminators `\n`, `\r`, `\r\n`,
`\x0b`, `\x0c`. -/
def pySplitLines : PyStr → List PyStr
  | [] => []
  | c :: s =>
    if c = '\n' || c = '\x0b' || c = '\x0c' then [] :: pySplitLines s
    else if c = '\x0d' then
      [] :: pySplitLines (match s with
        | '\n' :: s' => s'
        | s' => s')
    else
      match pySplitLines s with
      | t :: ts => (c :: t) :: ts
      | [] => [[c]]
termination_by s => s.length
decreasing_by
  all_goals try simp only [List.length_cons]
  all_goals try omega
  split
  all_goals try simp only [List.length_cons]
  all_goals omega

/-- `str.strip()` (ASCII whitespace). -/
def pyStrip (s : PyStr) : PyStr :=
  ((s.dropWhile isPyWs).reverse.dropWhile isPyWs).reverse

/-- Python `str.capitalize()`: first character uppercased, the rest
lowercased (ASCII model). -/
def pyCapitalize : PyStr → PyStr
  | [] => []
  | c :: s => upperC c :: s.map lowerC

/-- Python `str.title()` (ASCII model): a letter after a non-letter is
uppercased, a letter after a letter is lowercased. -/
def pyTitleGo : Bool → PyStr → PyStr
  | _, [] => []
  | prevAlpha, c :: s =>
    if isAlphaC c then
      (if prevAlpha then lowerC c else upperC c) :: pyTitleGo true s
    else
      c :: pyTitleGo false s

/-- Python `str.title()`. -/
def pyTitle (s : PyStr) : PyStr := pyTitleGo false s

/-- Join a list of strings with a separator (Python `sep.join(xs)`). -/
def joinSep (sep : PyStr) : List PyStr → PyStr
  | [] => []
  | [x] => x
  | x :: y :: xs => x ++ sep ++ joinSep sep (y :: xs)

/-- Decimal digit characters of `n` (most significant first, no leading
zeros; `"0"` for zero): the digits of Python's `str(int)`. -/
def natDigits (n : Nat) : PyStr :=
  if _h : n < 10 then [Char.ofNat ('0'.toNat + n)]
  else natDigits (n / 10) ++ [Char.ofNat ('0'.toNat + n % 10)]
decreasing_by omega

/-- Python `str(i)` for an `int`. -/
def intDec (i : Int) : PyStr :=
  if i < 0 then '-' :: natDigits i.natAbs else natDigits i.natAbs

/-- Zero-pad the decimal rendering of a natural number to width `w`. -/
def padNat (w : Nat) (n : Nat) : PyStr :=
  let d := natDigits n
  List.replicate (w - d.length) '0' ++ d

/-- The UTF-8 byte length of a character (Python file sizes are in bytes). -/
def utf8Len (s : PyStr) : Nat := (s.map Char.utf8Size).sum

/-- Structured values appearing in a tool's result envelope: the
JSON-serialisable Python values the handlers build. -/
inductive PyVal where
  | vStr : PyStr → PyVal
  | vInt : Int → PyVal
  | vRat : ℚ → PyVal
  | vBool : Bool → PyVal
  | vNone : PyVal
  | vList : List PyVal → PyVal
  | vDict : List (PyStr × PyVal) → PyVal

/-- A tool's result envelope: the string-keyed mapping it returns,
with insertion order preserved. -/
abbrev Envelope := List (String × PyVal)

/-- The error envelope a handler's `except` clause builds. -/
def errEnv (m : PyStr) : Envelope := [("error", PyVal.vStr m)]

/-- An envelope that is exactly an error report: a single `error` key
holding a message. -/
def isErrEnv (e : Envelope) : Prop := ∃ m, e = [("error", PyVal.vStr m)]

/-- Well-formed envelope: exactly one of a success payload or a single
`error` key — never both, never neither. -/
def wellFormedEnv (e : Envelope) : Prop :=
  isErrEnv e ∨ (List.lookup "error" e = none ∧ e ≠ [])

/-- Outcome of `subprocess.run(command, shell=True, cwd=.., timeout=30)`:
it either times out, raises some other exception, or completes with an
exit code and captured output streams. -/
inductive CmdResult where
  | timeout : CmdResult
  | exc : PyStr → CmdResult
  | done : Int → PyStr → PyStr → CmdResult

/-- `run_command` (src/main.py lines 119-141): execute a shell command and
return the result; a timeout and any other failure are caught and
reported as an error envelope. -/
def run_command (command : PyStr) (working_directory : PyStr)
    (res : CmdResult) : Envelope :=
  match res with
  | .timeout => errEnv (pys "Command timed out after 30 seconds")
  | .exc m => errEnv m
  | .done rc out err =>
      [("command", PyVal.vStr command),
       ("working_directory", PyVal.vStr working_directory),
       ("return_code", PyVal.vInt rc),
       ("stdout", PyVal.vStr out),
       ("stderr", PyVal.vStr err),
       ("success", PyVal.vBool (rc == 0))]

/-- Process environment: variable names to values (`os.environ`). -/
abbrev EnvVars := List (PyStr × PyStr)

/-- `os.environ.get name`. -/
def envGet (env : EnvVars) (name : PyStr) : Option PyStr :=
  (env.find? (fun e => e.1 = name)).map (fun e => e.2)

/-- `get_environment_variable` (src/main.py lines 143-151). -/
def get_environment_variable (env : EnvVars) (name : PyStr) : Envelope :=
  let value := envGet env name
  [("name", PyVal.vStr name),
   ("value", match value with
             | some v => PyVal.vStr v
             | none => PyVal.vNone),
   ("exists", PyVal.vBool value.isSome)]

/-- `count_words` (src/main.py lines 199-212): word and character
statistics of a text.  The mean word length is the Python expression
`sum(len(word) for word in words) / len(words) if words else 0`, modelled
exactly over `ℚ` (both operands are integers, so the float division is
exact whenever the two integer inputs agree). -/
def count_words (text : PyStr) : Envelope :=
  let words := pySplitWs text
  [("word_count", PyVal.vInt words.length),
   ("character_count", PyVal.vInt text.length),
   ("character_count_no_spaces",
     PyVal.vInt (text.filter (fun c => c ≠ ' ')).length),
   ("line_count", PyVal.vInt (pySplitLines text).length),
   ("average_word_length",
     if words.length = 0 then PyVal.vInt 0
     else PyVal.vRat (((words.map List.length).sum : ℚ) / (words.length : ℚ))),
   ("unique_words", PyVal.vInt words.dedup.length)]

/-- `format_text` (src/main.py lines 214-236). -/
def format_text (text : PyStr) (format_type : PyStr) : Envelope :=
  let formatted :=
    if format_type = pys "clean" then joinSep (pys " ") (pySplitWs text)
    else if format_type = pys "uppercase" then upperStr text
    else if format_type = pys "lowercase" then lowerStr text
    else if format_type = pys "title" then pyTitle text
    else if format_type = pys "sentence" then
      joinSep (pys ". ") ((splitDot text).map (fun s => pyStrip (pyCapitalize s)))
    else text
  [("original", PyVal.vStr text),
   ("formatted", PyVal.vStr formatted),
   ("format_type", PyVal.vStr format_type),
   ("length_change", PyVal.vInt ((formatted.length : Int) - (text.length : Int)))]

/-- A filesystem path, as a list of name components below the root. -/
abbrev FPath := List PyStr

/-- What a path resolves to on disk.  `file` carries the decoded UTF-8
text (`none` when the bytes do not decode), the byte size, and the
modification / change timestamps; `dir` is a directory; `other` is a
node that is neither a regular file nor a directory (broken symlink,
FIFO, socket, device), for which Python's `Path.is_file()` and
`Path.is_dir()` are both false. -/
inductive FNode where
  | file : Option PyStr → Nat → Int → Int → FNode
  | dir : FNode
  | other : FNode
deriving DecidableEq

/-- `Path.is_file()` on a node. -/
def isFileN : FNode → Bool
  | .file _ _ _ _ => true
  | _ => false

/-- `Path.is_dir()` on a node. -/
def isDirN : FNode → Bool
  | .dir => true
  | _ => false

/-- A filesystem snapshot: association list from paths to nodes
(an earlier entry shadows a later one with the same path). -/
abbrev FS := List (FPath × FNode)

/-- Look a path up in the snapshot. -/
def fsLookup (fs : FS) (p : FPath) : Option FNode :=
  (fs.find? (fun e => e.1 = p)).map (fun e => e.2)

/-- `Path.exists()`. -/
def fsExists (fs : FS) (p : FPath) : Bool := (fsLookup fs p).isSome

/-- The decoded text of the regular file at `p`, if any. -/
def fileText (fs : FS) (p : FPath) : Option PyStr :=
  match fsLookup fs p with
  | some (.file t _ _ _) => t
  | _ => none

/-- Render a path the way `str(path)` renders a resolved absolute path. -/
def renderAbs (p : FPath) : PyStr := '/' :: joinSep (pys "/") p

/-- Render a path relative to a base (`str(f.relative_to(base))`). -/
def joinSlash (p : FPath) : PyStr := joinSep (pys "/") p

/-- Shell-style name matching as used by `pathlib` glob on one name
component: `*` matches any run of characters, `?` any one character,
other characters match themselves (character classes are not used by the
handlers under verification).  Patterns holding `**` never reach this
matcher: `globPatError` and `rglobPatError` below reject them first,
exactly as the selector construction in `pathlib` does. -/
def fnmatch : PyStr → PyStr → Bool
  | [], [] => true
  | [], _ :: _ => false
  | '*' :: ps, s =>
      fnmatch ps s ||
        (match s with
         | [] => false
         | _ :: s' => fnmatch ('*' :: ps) s')
  | '?' :: _, [] => false
  | '?' :: ps, _ :: s' => fnmatch ps s'
  | _ :: _, [] => false
  | c :: ps, c' :: s' => c = c' && fnmatch ps s'
termination_by p s => (p.length, s.length)

/-- Strip `root` from the front of `q`; `some rel` when `q = root ++ rel`. -/
def stripRoot : FPath → FPath → Option FPath
  | [], q => some q
  | _ :: _, [] => none
  | r :: rs, q :: qs => if r = q then stripRoot rs qs else none

/-- The last name component of a path (the empty string for the root). -/
def lastName (p : FPath) : PyStr := (p.getLast?).getD []

/-- Whether some slash-separated component of the pattern contains `**`
without being exactly `**`: `pathlib` rejects such components with
`ValueError` (`Invalid pattern: ** can only be an entire path
component`) while building its selector. -/
def badDStarComp (pattern : PyStr) : Bool :=
  (pattern.splitOn '/').any
    (fun comp => containsSub (pys "**") comp && decide (comp ≠ pys "**"))

/-- The validation `Path.glob` performs before touching the filesystem:
an empty pattern and an absolute pattern are rejected (`ValueError`,
`NotImplementedError`), and so is `**` inside a path component.
`some message` is the exception text, `none` acceptance. -/
def globPatError (pattern : PyStr) : Option PyStr :=
  if pattern = [] then some (pys "Unacceptable pattern")
  else if pattern.head? = some '/' then
    some (pys "Non-relative patterns are unsupported")
  else if badDStarComp pattern then
    some (pys "Invalid pattern: ** can only be an entire path component")
  else none

/-- The validation `Path.rglob` performs: as for `glob`, except that an
empty pattern is accepted (only the implicit leading `**` remains). -/
def rglobPatError (pattern : PyStr) : Option PyStr :=
  if pattern.head? = some '/' then
    some (pys "Non-relative patterns are unsupported")
  else if badDStarComp pattern then
    some (pys "Invalid pattern: ** can only be an entire path component")
  else none

/-- The non-recursive glob matches of `pattern` in directory `root`:
the immediate children of `root` whose name matches, paired with their
node, in snapshot order (`list(path.glob(pattern))` on the slash-free,
`**`-free patterns the validated claims exercise). -/
def globMatches (fs : FS) (root : FPath) (pattern : PyStr) :
    List (PyStr × FNode) :=
  fs.filterMap (fun e =>
    match stripRoot root e.1 with
    | some [n] => if fnmatch pattern n then some (n, e.2) else none
    | _ => none)

/-- `list_files` (src/main.py lines 29-44): list a directory with an
optional glob pattern, partitioning matches into files and directories;
a failure is caught and reported as an error envelope.  `path.glob`
validates its pattern before listing anything, so an invalid pattern is
reported even when the directory is also missing. -/
def list_files (fs : FS) (root : FPath) (pattern : PyStr) : Envelope :=
  match globPatError pattern with
  | some m => errEnv m
  | none =>
  match fsLookup fs root with
  | some .dir =>
      let ms := globMatches fs root pattern
      [("directory", PyVal.vStr (renderAbs root)),
       ("pattern", PyVal.vStr pattern),
       ("files", PyVal.vList ((ms.filter (fun m => isFileN m.2)).map
         (fun m => PyVal.vStr m.1))),
       ("directories", PyVal.vList ((ms.filter (fun m => isDirN m.2)).map
         (fun m => PyVal.vStr m.1))),
       ("total_files", PyVal.vInt (ms.filter (fun m => isFileN m.2)).length),
       ("total_dirs", PyVal.vInt (ms.filter (fun m => isDirN m.2)).length)]
  | _ => errEnv (pys "No such file or directory")

/-- The recursive glob matches of a validated single-component
`pattern` under `root`: the proper descendants of `root` whose last name
component matches (`list(path.rglob(pattern))`). -/
def rglobMatches (fs : FS) (root : FPath) (pattern : PyStr) :
    List (FPath × FNode) :=
  fs.filterMap (fun e =>
    match stripRoot root e.1 with
    | some (n :: rest) =>
        if fnmatch pattern (lastName (n :: rest)) then some (n :: rest, e.2)
        else none
    | _ => none)

/-- `search_files` (src/main.py lines 46-77): recursively walk a
directory; for each regular file whose name matches the extension
filter, read it as text (silently skipping files that do not decode) and
keep it when the query occurs case-insensitively in its content,
reporting its relative path, byte size and modification timestamp.
The handler prefixes the filter with `*`, so `path.rglob` rejects any
`file_type` that itself starts with `*` — the resulting pattern has
`**` inside one component — and the `ValueError` is caught into an
error envelope. -/
def search_files (fs : FS) (root : FPath) (query : PyStr) (file_type : PyStr)
    (fmtTime : Int → PyStr) : Envelope :=
  let pattern := if file_type ≠ pys "*" then '*' :: file_type else pys "*"
  match rglobPatError pattern with
  | some m => errEnv m
  | none =>
  match fsLookup fs root with
  | some .dir =>
      let results := (rglobMatches fs root pattern).filterMap (fun m =>
        match m.2 with
        | .file t size mtime _ =>
            match t with
            | some content =>
                if containsSub (lowerStr query) (lowerStr content) then
                  some (PyVal.vDict
                    [(pys "file", PyVal.vStr (joinSlash m.1)),
                     (pys "size", PyVal.vInt size),
                     (pys "modified", PyVal.vStr (fmtTime mtime))])
                else none
            | none => none
        | _ => none)
      [("directory", PyVal.vStr (renderAbs root)),
       ("query", PyVal.vStr query),
       ("file_type", PyVal.vStr file_type),
       ("results", PyVal.vList results),
       ("total_matches", PyVal.vInt results.length)]
  | _ => errEnv (pys "No such file or directory")

/-- The non-empty proper prefixes of a path: the ancestor directories
`Path(file_path).parent.mkdir(parents=True)` has to provide. -/
def properAncestors (p : FPath) : List FPath :=
  (List.range (p.length - 1)).map (fun k => p.take (k + 1))

/-- `path.parent.mkdir(parents=True, exist_ok=True)`: create each missing
ancestor directory; raise when an ancestor exists but is not a
directory. -/
def mkdirAncestors (fs : FS) : List FPath → Except PyStr FS
  | [] => .ok fs
  | q :: rest =>
      match fsLookup fs q with
      | some .dir => mkdirAncestors fs rest
      | some _ => .error (pys "NotADirectoryError")
      | none => mkdirAncestors ((q, FNode.dir) :: fs) rest

/-- `open(path, "w")` followed by `f.write(content)`: fails when the path
is an existing directory or special node, otherwise replaces (or creates)
the regular file, updating its size and timestamps. -/
def writeFileFs (fs : FS) (p : FPath) (content : PyStr) (now : Int) :
    Except PyStr FS :=
  match fsLookup fs p with
  | some .dir => .error (pys "IsADirectoryError")
  | some .other => .error (pys "OSError")
  | _ => .ok ((p, FNode.file (some content) (utf8Len content) now now) :: fs)

/-- `create_file` (src/main.py lines 79-98): refuse to touch an existing
path unless `overwrite` is set, otherwise create parent directories as
needed and write the content; any underlying failure is caught and
reported as an error envelope.  Returns the filesystem after the call
together with the envelope. -/
def create_file (fs : FS) (p : FPath) (content : PyStr) (overwrite : Bool)
    (now : Int) (fmtTime : Int → PyStr) : FS × Envelope :=
  if fsExists fs p && !overwrite then
    (fs, errEnv (pys "File " ++ renderAbs p ++
      pys " already exists. Set overwrite=True to overwrite."))
  else
    match mkdirAncestors fs (properAncestors p) with
    | .error m => (fs, errEnv m)
    | .ok fs1 =>
        match writeFileFs fs1 p content now with
        | .error m => (fs1, errEnv m)
        | .ok fs2 =>
            (fs2,
             [("success", PyVal.vBool true),
              ("file_path", PyVal.vStr (renderAbs p)),
              ("size", PyVal.vInt (utf8Len content)),
              ("created", PyVal.vStr (fmtTime now))])

/-- The queries `get_system_info` performs against the host: the
`platform` module identifiers (which do not raise), and the current and
home directory lookups, which the OS may fail (`os.getcwd` raises when
the working directory has been deleted, `Path.home()` raises when the
home directory cannot be resolved). -/
structure SysOracle where
  platformSystem : PyStr
  platformVersion : PyStr
  machine : PyStr
  processor : PyStr
  pythonVersion : PyStr
  cwd : Except PyStr PyStr
  home : Except PyStr PyStr
  environ : List (PyStr × PyStr)

/-- `get_system_info` (src/main.py lines 104-116).  The handler has no
`try`/`except`, so a failing directory lookup propagates out of it:
the result is `Except.error` exactly when an underlying query raises. -/
def get_system_info (o : SysOracle) : Except PyStr Envelope := do
  let c ← o.cwd
  let h ← o.home
  .ok [("platform", PyVal.vStr o.platformSystem),
       ("platform_version", PyVal.vStr o.platformVersion),
       ("architecture", PyVal.vStr o.machine),
       ("processor", PyVal.vStr o.processor),
       ("python_version", PyVal.vStr o.pythonVersion),
       ("current_directory", PyVal.vStr c),
       ("home_directory", PyVal.vStr h),
       ("environment_variables",
         PyVal.vDict (o.environ.map (fun e => (e.1, PyVal.vStr e.2))))]

/-- A parsed `datetime.datetime`: calendar and clock components plus an
optional UTC offset in seconds (naive datetimes carry `none`). -/
structure PyDateTime where
  year : Nat
  month : Nat
  day : Nat
  hour : Nat
  minute : Nat
  second : Nat
  micro : Nat
  off : Option Int
deriving DecidableEq

/-- Proleptic Gregorian leap year. -/
def isLeap (y : Nat) : Bool := (y % 4 = 0 && y % 100 ≠ 0) || y % 400 = 0

/-- Days in a month of the proleptic Gregorian calendar. -/
def daysInMonth (y m : Nat) : Nat :=
  if m = 2 then (if isLeap y then 29 else 28)
  else if m = 4 || m = 6 || m = 9 || m = 11 then 30
  else 31

/-- Days from 1970-01-01 to the given proleptic Gregorian date
(the standard civil-calendar conversion, with floor division). -/
def daysFromCivil (y m d : Int) : Int :=
  let y' := if m ≤ 2 then y - 1 else y
  let era := Int.fdiv y' 400
  let yoe := y' - era * 400
  let mp := Int.fmod (m + 9) 12
  let doy := Int.fdiv (153 * mp + 2) 5 + d - 1
  let doe := yoe * 365 + Int.fdiv yoe 4 - Int.fdiv yoe 100 + doy
  era * 146097 + doe - 719468

/-- A datetime's position on its own (local) timeline, in microseconds
since 1970-01-01T00:00:00 of that timeline. -/
def toMicros (t : PyDateTime) : Int :=
  daysFromCivil t.year t.month t.day * 86400000000 +
    (((t.hour * 60 + t.minute) * 60 + t.second) * 1000000 + t.micro)

/-- The instant of a datetime in UTC microseconds (aware datetimes are
shifted by their offset; for naive ones this is the local timeline). -/
def utcMicros (t : PyDateTime) : Int :=
  toMicros t - (t.off.getD 0) * 1000000

/-- Render a UTC offset as `+HH:MM` / `-HH:MM` (`datetime.isoformat`). -/
def renderOff : Option Int → PyStr
  | none => []
  | some off =>
      (if off < 0 then pys "-" else pys "+") ++
        padNat 2 (off.natAbs / 3600) ++ pys ":" ++
        padNat 2 (off.natAbs % 3600 / 60)

/-- `datetime.isoformat()`. -/
def isoOfDT (t : PyDateTime) : PyStr :=
  padNat 4 t.year ++ pys "-" ++ padNat 2 t.month ++ pys "-" ++
    padNat 2 t.day ++ pys "T" ++ padNat 2 t.hour ++ pys ":" ++
    padNat 2 t.minute ++ pys ":" ++ padNat 2 t.second ++
    (if t.micro = 0 then [] else '.' :: padNat 6 t.micro) ++
    renderOff t.off

/-- Two-digit decimal field of an ISO timestamp. -/
def d2v (a b : Char) : Option Nat :=
  if isDigitC a && isDigitC b then some (10 * digitVal a + digitVal b)
  else none

/-- Four-digit decimal field of an ISO timestamp. -/
def d4v (a b c d : Char) : Option Nat :=
  if isDigitC a && isDigitC b && isDigitC c && isDigitC d then
    some (((digitVal a * 10 + digitVal b) * 10 + digitVal c) * 10 + digitVal d)
  else none

/-- Numeric value of a digit run. -/
def digitsVal (l : PyStr) : Nat := l.foldl (fun acc c => 10 * acc + digitVal c) 0

/-- Parse the optional `±HH:MM` UTC-offset suffix accepted by
`datetime.fromisoformat` (empty input means a naive datetime). -/
def parseOffSuffix : PyStr → Option (Option Int)
  | [] => some none
  | sign :: h1 :: h2 :: ':' :: m1 :: m2 :: [] =>
      if sign = '+' || sign = '-' then
        match d2v h1 h2, d2v m1 m2 with
        | some hh, some mm =>
            if hh < 24 && mm < 60 then
              some (some ((if sign = '-' then (-1 : Int) else 1) *
                (hh * 3600 + mm * 60)))
            else none
        | _, _ => none
      else none
  | _ => none

/-- Parse the optional fractional-second part (3 or 6 digits) followed by
the optional offset suffix. -/
def parseFracOff : PyStr → Option (Nat × Option Int)
  | '.' :: rest =>
      let ds := rest.takeWhile isDigitC
      if ds.length = 6 then
        (parseOffSuffix (rest.drop 6)).map (fun off => (digitsVal ds, off))
      else if ds.length = 3 then
        (parseOffSuffix (rest.drop 3)).map (fun off => (digitsVal ds * 1000, off))
      else none
  | rest => (parseOffSuffix rest).map (fun off => (0, off))

/-- Parse the clock part `HH:MM[:SS[.ffffff]][±HH:MM]` of an ISO
timestamp onto an already-parsed date. -/
def parseClock (y mo dy : Nat) : PyStr → Option PyDateTime
  | h1 :: h2 :: ':' :: mi1 :: mi2 :: rest => do
      let hh ← d2v h1 h2
      let mi ← d2v mi1 mi2
      if hh ≤ 23 && mi ≤ 59 then
        match rest with
        | [] => some ⟨y, mo, dy, hh, mi, 0, 0, none⟩
        | ':' :: s1 :: s2 :: rest2 => do
            let ss ← d2v s1 s2
            if ss ≤ 59 then do
              let fo ← parseFracOff rest2
              some ⟨y, mo, dy, hh, mi, ss, fo.1, fo.2⟩
            else none
        | rest => do
            let off ← parseOffSuffix rest
            some ⟨y, mo, dy, hh, mi, 0, 0, off⟩
      else none
  | _ => none

/-- `datetime.fromisoformat`: `YYYY-MM-DD`, optionally followed by a
`T`/space separator and a clock part with optional fractional seconds
and UTC offset.  Calendar fields are validated. -/
def pyFromIso : PyStr → Option PyDateTime
  | y1 :: y2 :: y3 :: y4 :: '-' :: m1 :: m2 :: '-' :: d1 :: d2 :: rest => do
      let y ← d4v y1 y2 y3 y4
      let mo ← d2v m1 m2
      let dy ← d2v d1 d2
      if 1 ≤ y && 1 ≤ mo && mo ≤ 12 && 1 ≤ dy && dy ≤ daysInMonth y mo then
        match rest with
        | [] => some ⟨y, mo, dy, 0, 0, 0, 0, none⟩
        | sep :: t => if sep = 'T' || sep = ' ' then parseClock y mo dy t else none
      else none
  | _ => none

/-- `str(timedelta)` for a microsecond-valued duration: optional
`D day(s), ` prefix, `H:MM:SS`, optional `.ffffff` suffix; the day count
uses floor division, as `timedelta` normalisation does. -/
def tdRender (diff : Int) : PyStr :=
  let d := Int.fdiv diff 86400000000
  let rem := Int.fmod diff 86400000000
  let secs := Int.fdiv rem 1000000
  let us := Int.fmod rem 1000000
  let h := Int.fdiv secs 3600
  let m := Int.fmod secs 3600 / 60
  let s := Int.fmod secs 60
  (if d = 0 then [] else
    intDec d ++ (if d = 1 || d = -1 then pys " day, " else pys " days, ")) ++
    intDec h ++ pys ":" ++ padNat 2 m.toNat ++ pys ":" ++ padNat 2 s.toNat ++
    (if us = 0 then [] else '.' :: padNat 6 us.toNat)

/-- `end - start` on two parsed datetimes: raises (as Python does) when
one is aware and the other naive, otherwise the exact signed difference
in microseconds. -/
def pyTimeDiff (start finish : PyDateTime) : Except PyStr Int :=
  match start.off, finish.off with
  | none, none => .ok (toMicros finish - toMicros start)
  | some _, some _ => .ok (utcMicros finish - utcMicros start)
  | _, _ => .error (pys "cannot subtract offset-naive and offset-aware datetimes")

/-- `calculate_time_difference` (src/main.py lines 170-192): parse both
endpoints (with `fromisoformat` when `format` is `"iso"`, else with the
caller-supplied `strptime` behaviour `strp`), subtract, and report the
signed difference in several units; every failure is caught and reported
as an error envelope. -/
def calculate_time_difference (start_time end_time format : PyStr)
    (strp : PyStr → PyStr → Option PyDateTime) : Envelope :=
  let pst := if format = pys "iso" then pyFromIso start_time
             else strp start_time format
  let pet := if format = pys "iso" then pyFromIso end_time
             else strp end_time format
  match pst, pet with
  | some a, some b =>
      match pyTimeDiff a b with
      | .ok diff =>
          [("start_time", PyVal.vStr (isoOfDT a)),
           ("end_time", PyVal.vStr (isoOfDT b)),
           ("difference_seconds", PyVal.vRat ((diff : ℚ) / 1000000)),
           ("difference_minutes", PyVal.vRat ((diff : ℚ) / 1000000 / 60)),
           ("difference_hours", PyVal.vRat ((diff : ℚ) / 1000000 / 3600)),
           ("difference_days", PyVal.vInt (Int.fdiv diff 86400000000)),
           ("formatted", PyVal.vStr (tdRender diff))]
      | .error m => errEnv m
  | _, _ => errEnv (pys "Invalid isoformat string")

/-- Weekday names as `strftime("%A")` renders them. -/
def dayNames : List PyStr :=
  [pys "Monday", pys "Tuesday", pys "Wednesday", pys "Thursday",
   pys "Friday", pys "Saturday", pys "Sunday"]

/-- `get_current_time` (src/main.py lines 157-168): the wall clock is an
oracle supplying the current local `datetime` and its epoch-seconds
value. -/
def get_current_time (now : PyDateTime) (epoch : ℚ) (timezone : PyStr) :
    Envelope :=
  [("current_time", PyVal.vStr (isoOfDT now)),
   ("date", PyVal.vStr (padNat 4 now.year ++ pys "-" ++ padNat 2 now.month ++
     pys "-" ++ padNat 2 now.day)),
   ("time", PyVal.vStr (padNat 2 now.hour ++ pys ":" ++ padNat 2 now.minute ++
     pys ":" ++ padNat 2 now.second)),
   ("day_of_week", PyVal.vStr (dayNames.getD
     (Int.fmod (daysFromCivil now.year now.month now.day + 3) 7).toNat [])),
   ("timezone", PyVal.vStr timezone),
   ("timestamp", PyVal.vRat epoch)]

/-- JSON values as Python's `json` module produces them for the inputs we
model: `null`, booleans, integers, strings, arrays, and objects with
insertion-ordered string keys.  (JSON numbers with a fraction or exponent
parse to Python floats; floating point is outside this embedding, so such
documents are simply outside the modelled parser's domain.) -/
inductive JVal where
  | jnull : JVal
  | jbool : Bool → JVal
  | jint : Int → JVal
  | jstr : PyStr → JVal
  | jarr : List JVal → JVal
  | jobj : List (PyStr × JVal) → JVal

/-- Lowercase hexadecimal digit character (`%04x` formatting). -/
def hexDigChar (n : Nat) : Char :=
  if n < 10 then Char.ofNat ('0'.toNat + n) else Char.ofNat ('a'.toNat + n - 10)

/-- Four lowercase hex digits of `n < 0x10000`. -/
def hex4 (n : Nat) : PyStr :=
  [hexDigChar (n / 4096 % 16), hexDigChar (n / 256 % 16),
   hexDigChar (n / 16 % 16), hexDigChar (n % 16)]

/-- `json.dumps` escaping of one character with `ensure_ascii=True`:
printable ASCII passes through, known controls use short escapes, and
everything else becomes `\uXXXX` (with a surrogate pair above U+FFFF). -/
def escapeChar (c : Char) : PyStr :=
  if c = '"' then ['\\', '"']
  else if c = '\\' then ['\\', '\\']
  else if c = '\n' then ['\\', 'n']
  else if c = '\x0d' then ['\\', 'r']
  else if c = '\t' then ['\\', 't']
  else if c = '\x08' then ['\\', 'b']
  else if c = '\x0c' then ['\\', 'f']
  else if 0x20 ≤ c.toNat && c.toNat ≤ 0x7e then [c]
  else if c.toNat < 0x10000 then '\\' :: 'u' :: hex4 c.toNat
  else
    let m := c.toNat - 0x10000
    '\\' :: 'u' :: hex4 (0xd800 + m / 0x400) ++
      '\\' :: 'u' :: hex4 (0xdc00 + m % 0x400)

/-- The escaped body of a JSON string literal. -/
def escBody (s : PyStr) : PyStr := (s.map escapeChar).flatten

/-- A JSON string literal: `"` body `"`. -/
def escStr (s : PyStr) : PyStr := '"' :: (escBody s ++ ['"'])

/-- Two-space indentation at nesting depth `k` (`indent=2`). -/
def jIndent (k : Nat) : PyStr := List.replicate (2 * k) ' '

mutual
/-- `json.dumps(v, indent=2)` at nesting depth `d`. -/
def dumpVal (d : Nat) : JVal → PyStr
  | .jnull => pys "null"
  | .jbool true => pys "true"
  | .jbool false => pys "false"
  | .jint n => intDec n
  | .jstr s => escStr s
  | .jarr [] => pys "[]"
  | .jarr (x :: xs) =>
      '[' :: '\n' :: (dumpItems d (x :: xs) ++ '\n' :: (jIndent d ++ [']']))
  | .jobj [] => pys "\x7b\x7d"
  | .jobj (m :: ms) =>
      '\x7b' :: '\n' :: (dumpMembers d (m :: ms) ++ '\n' :: (jIndent d ++ ['\x7d']))

/-- The newline-separated, indented items of a non-empty array. -/
def dumpItems (d : Nat) : List JVal → PyStr
  | [] => []
  | [x] => jIndent (d + 1) ++ dumpVal (d + 1) x
  | x :: y :: xs =>
      jIndent (d + 1) ++ dumpVal (d + 1) x ++ ',' :: '\n' :: dumpItems d (y :: xs)

/-- The newline-separated, indented members of a non-empty object. -/
def dumpMembers (d : Nat) : List (PyStr × JVal) → PyStr
  | [] => []
  | [(k, v)] => jIndent (d + 1) ++ escStr k ++ ':' :: ' ' :: dumpVal (d + 1) v
  | (k, v) :: m :: ms =>
      jIndent (d + 1) ++ escStr k ++ ':' :: ' ' :: dumpVal (d + 1) v ++
        ',' :: '\n' :: dumpMembers d (m :: ms)
end

/-- `json.dumps(v, indent=2)`. -/
def dumps2 (v : JVal) : PyStr := dumpVal 0 v

mutual
/-- `json.dumps(v)` with the default separators `", "` and `": "`. -/
def dumpValC : JVal → PyStr
  | .jnull => pys "null"
  | .jbool true => pys "true"
  | .jbool false => pys "false"
  | .jint n => intDec n
  | .jstr s => escStr s
  | .jarr xs => '[' :: (dumpItemsC xs ++ [']'])
  | .jobj ms => '\x7b' :: (dumpMembersC ms ++ ['\x7d'])

/-- Comma-separated compact array items. -/
def dumpItemsC : List JVal → PyStr
  | [] => []
  | [x] => dumpValC x
  | x :: y :: xs => dumpValC x ++ ',' :: ' ' :: dumpItemsC (y :: xs)

/-- Comma-separated compact object members. -/
def dumpMembersC : List (PyStr × JVal) → PyStr
  | [] => []
  | [(k, v)] => escStr k ++ ':' :: ' ' :: dumpValC v
  | (k, v) :: m :: ms =>
      escStr k ++ ':' :: ' ' :: dumpValC v ++ ',' :: ' ' :: dumpMembersC (m :: ms)
end

/-- `json.dumps(v)` (compact mode of `convert_data`). -/
def dumpsC (v : JVal) : PyStr := dumpValC v

/-- JSON inter-token whitespace (`json.decoder` skips exactly these). -/
def jsonWsC (c : Char) : Bool :=
  c = ' ' || c = '\t' || c = '\n' || c = '\x0d'

/-- Skip inter-token whitespace. -/
def skipWs (s : PyStr) : PyStr := s.dropWhile jsonWsC

/-- Value of a hexadecimal digit character, if any. -/
def hexDigVal (c : Char) : Option Nat :=
  let n := c.toNat
  if 48 ≤ n && n ≤ 57 then some (n - 48)
  else if 97 ≤ n && n ≤ 102 then some (n - 87)
  else if 65 ≤ n && n ≤ 70 then some (n - 55)
  else none

/-- Value of four hex digits. -/
def hexVal4 (a b c d : Char) : Option Nat := do
  let va ← hexDigVal a
  let vb ← hexDigVal b
  let vc ← hexDigVal c
  let vd ← hexDigVal d
  some (((va * 16 + vb) * 16 + vc) * 16 + vd)

/-- The single character denoted by a short escape `\e`, if `e` is one of
the strict-mode escape letters other than `u`. -/
def escCharOf (e : Char) : Option Char :=
  if e = '"' then some '"'
  else if e = '\\' then some '\\'
  else if e = '/' then some '/'
  else if e = 'b' then some '\x08'
  else if e = 'f' then some '\x0c'
  else if e = 'n' then some '\n'
  else if e = 'r' then some '\x0d'
  else if e = 't' then some '\t'
  else none

mutual
/-- Parse the body of a JSON string literal (the opening quote already
consumed): unescapes the strict-mode escape sequences, combines surrogate
pairs, rejects raw control characters and lone surrogates, and returns
the content together with the input after the closing quote. -/
def parseStrBody : PyStr → Option (PyStr × PyStr)
  | [] => none
  | c :: rest =>
      if c = '"' then some ([], rest)
      else if c = '\\' then parseEscSeq rest
      else if c.toNat < 0x20 then none
      else (parseStrBody rest).map (fun r => (c :: r.1, r.2))
termination_by s => s.length
decreasing_by all_goals (simp only [List.length_cons]; omega)

/-- Parse what follows a backslash inside a string literal. -/
def parseEscSeq : PyStr → Option (PyStr × PyStr)
  | [] => none
  | e :: rest1 =>
      if e = 'u' then parseU rest1
      else
        (escCharOf e).bind (fun ch =>
          (parseStrBody rest1).map (fun r => (ch :: r.1, r.2)))
termination_by s => s.length
decreasing_by all_goals (simp only [List.length_cons]; omega)

/-- Parse the four hex digits of a `\uXXXX` escape and dispatch on the
value (plain scalar, high surrogate, or rejected lone low surrogate). -/
def parseU : PyStr → Option (PyStr × PyStr)
  | a :: b :: c2 :: d :: rest2 =>
      (match hexVal4 a b c2 d with
       | none => none
       | some v1 =>
           if 0xd800 ≤ v1 && v1 < 0xdc00 then parseLowSur v1 rest2
           else if 0xdc00 ≤ v1 && v1 < 0xe000 then none
           else (parseStrBody rest2).map
             (fun r => (Char.ofNat v1 :: r.1, r.2)))
  | _ => none
termination_by s => s.length
decreasing_by all_goals (simp only [List.length_cons]; omega)

/-- Parse the low half of a surrogate pair (`\uXXXX`), given the high
half value `v1`. -/
def parseLowSur (v1 : Nat) : PyStr → Option (PyStr × PyStr)
  | e2 :: u2 :: a2 :: b2 :: c3 :: d2 :: rest3 =>
      if e2 = '\\' && u2 = 'u' then
        match hexVal4 a2 b2 c3 d2 with
        | none => none
        | some v2 =>
            if 0xdc00 ≤ v2 && v2 < 0xe000 then
              (parseStrBody rest3).map (fun r =>
                (Char.ofNat (0x10000 + (v1 - 0xd800) * 0x400 +
                  (v2 - 0xdc00)) :: r.1, r.2))
            else none
      else none
  | _ => none
termination_by s => s.length
decreasing_by all_goals (simp only [List.length_cons]; omega)
end

/-- Parse an unsigned JSON integer token: `0`, or a nonzero digit
followed by a greedy digit run (the integer part of the `json` number
grammar). -/
def parseUIntTok : PyStr → Option (Nat × PyStr)
  | [] => none
  | c :: rest =>
      if c = '0' then some (0, rest)
      else if isDigitC c then
        some (digitsVal (c :: rest.takeWhile isDigitC),
          rest.drop (rest.takeWhile isDigitC).length)
      else none

/-- Parse a signed JSON integer token. -/
def parseIntTok : PyStr → Option (Int × PyStr)
  | [] => none
  | c :: rest =>
      if c = '-' then (parseUIntTok rest).map (fun r => (-(r.1 : Int), r.2))
      else (parseUIntTok (c :: rest)).map (fun r => ((r.1 : Int), r.2))

/-- Insert a parsed object member as Python dict assignment does: replace
the value in place when the key is already present, else append. -/
def insKV (acc : List (PyStr × JVal)) (k : PyStr) (v : JVal) :
    List (PyStr × JVal) :=
  match acc with
  | [] => [(k, v)]
  | (k', v') :: rest =>
      if k' = k then (k', v) :: rest else (k', v') :: insKV rest k v

/-- Build an object from the raw member list in source order with
Python's duplicate-key semantics (last value wins, first position kept). -/
def objFromPairs (raw : List (PyStr × JVal)) : List (PyStr × JVal) :=
  raw.foldl (fun acc m => insKV acc m.1 m.2) []

mutual
/-- Fueled JSON value parser: leading whitespace, then one value.
Fuel bounds the nesting/width of the document; `pyJsonLoads` supplies
more fuel than any input can consume. -/
def parseVal : Nat → PyStr → Option (JVal × PyStr)
  | 0, _ => none
  | Nat.succ f, s =>
      match skipWs s with
      | [] => none
      | c :: rest =>
          if c = 'n' then
            match rest with
            | 'u' :: 'l' :: 'l' :: r => some (.jnull, r)
            | _ => none
          else if c = 't' then
            match rest with
            | 'r' :: 'u' :: 'e' :: r => some (.jbool true, r)
            | _ => none
          else if c = 'f' then
            match rest with
            | 'a' :: 'l' :: 's' :: 'e' :: r => some (.jbool false, r)
            | _ => none
          else if c = '"' then
            (parseStrBody rest).map (fun r => (.jstr r.1, r.2))
          else if c = '[' then
            (if (skipWs rest).head? = some ']' then
              some (.jarr [], (skipWs rest).tail)
            else (parseItems f rest).map (fun r => (.jarr r.1, r.2)))
          else if c = '\x7b' then
            (if (skipWs rest).head? = some '\x7d' then
              some (.jobj [], (skipWs rest).tail)
            else (parseMembers f rest).map
              (fun r => (.jobj (objFromPairs r.1), r.2)))
          else (parseIntTok (c :: rest)).map (fun r => (.jint r.1, r.2))

/-- Fueled parser for the items of a non-empty array (after `[`). -/
def parseItems : Nat → PyStr → Option (List JVal × PyStr)
  | 0, _ => none
  | Nat.succ f, s => do
      let r ← parseVal f s
      match skipWs r.2 with
      | ',' :: rest2 => (parseItems f rest2).map (fun t => (r.1 :: t.1, t.2))
      | ']' :: rest2 => some ([r.1], rest2)
      | _ => none

/-- Fueled parser for the raw members of a non-empty object (after
`{`), in source order. -/
def parseMembers : Nat → PyStr → Option (List (PyStr × JVal) × PyStr)
  | 0, _ => none
  | Nat.succ f, s =>
      match skipWs s with
      | '"' :: rest => do
          let rk ← parseStrBody rest
          match skipWs rk.2 with
          | ':' :: rest2 => do
              let rv ← parseVal f rest2
              match skipWs rv.2 with
              | ',' :: rest4 =>
                  (parseMembers f rest4).map
                    (fun t => ((rk.1, rv.1) :: t.1, t.2))
              | '\x7d' :: rest4 => some ([(rk.1, rv.1)], rest4)
              | _ => none
          | _ => none
      | _ => none
end

/-- `json.loads` on the modelled fragment: parse one value and require
only whitespace to remain. -/
def pyJsonLoads (s : PyStr) : Option JVal :=
  match parseVal (s.length + 1) s with
  | some r => if skipWs r.2 = [] then some r.1 else none
  | none => none

/-- `convert_data` (src/main.py lines 242-266): JSON in, pretty or
compact JSON out; unsupported formats and parse failures are reported as
error envelopes. -/
def convert_data (data from_format to_format : PyStr) : Envelope :=
  if from_format = pys "json" then
    match pyJsonLoads data with
    | some parsed =>
        if to_format = pys "json" then
          let result := dumps2 parsed
          [("success", PyVal.vBool true),
           ("from_format", PyVal.vStr from_format),
           ("to_format", PyVal.vStr to_format),
           ("result", PyVal.vStr result),
           ("size", PyVal.vInt result.length)]
        else if to_format = pys "compact_json" then
          let result := dumpsC parsed
          [("success", PyVal.vBool true),
           ("from_format", PyVal.vStr from_format),
           ("to_format", PyVal.vStr to_format),
           ("result", PyVal.vStr result),
           ("size", PyVal.vInt result.length)]
        else errEnv (pys "Unsupported output format: " ++ to_format)
    | none => errEnv (pys "Expecting value")
  else errEnv (pys "Unsupported input format: " ++ from_format)

/-- The sentence-case transformation exactly as the specification words
it: the segments of the text split on periods, each segment capitalized
and trimmed, rejoined with `". "`. -/
def sentenceSpec (t : PyStr) : PyStr :=
  joinSep (pys ". ") ((splitDot t).map (fun s => pyStrip (pyCapitalize s)))

/-- A filesystem with a directory `d` containing one node that is
neither a regular file nor a directory (e.g. a broken symbolic link). -/
def fsBroken : FS :=
  [([pys "d"], FNode.dir), ([pys "d", pys "x"], FNode.other)]

/-- A searched directory containing one text file whose content holds
`"Hello World"`. -/
def fsSearch : FS :=
  [([pys "r"], FNode.dir),
   ([pys "r", pys "notes.txt"],
     FNode.file (some (pys "say Hello World!")) 16 7 7)]

/-- Reassemble a text from its whitespace gaps and its words:
`g0 w0 g1 w1 ... g(n-1) w(n-1) gn`.  A text `T'` is obtained from `T` by
shuffling only the order of its words when both are `assemble` of the
same gaps and of word lists that are permutations of each other. -/
def assemble : List PyStr → List PyStr → PyStr
  | gs, [] => gs.flatten
  | [], w :: ws => w ++ assemble [] ws
  | g :: gs, w :: ws => g ++ (w ++ assemble gs ws)

/-- The input ahead starts with whitespace (or is exhausted): the
boundary after a word. -/
def headWs (rest : PyStr) : Prop := ∀ c ∈ rest.take 1, isPyWs c = true

/-- A `strptime` oracle that is never consulted on the `"iso"` path. -/
def strpNone : PyStr → PyStr → Option PyDateTime := fun _ _ => none

/-- Character keys of an object member list. -/
def jKeys (l : List (PyStr × JVal)) : List PyStr := l.map (fun m => m.1)

/-- No two members share a key. -/
def noDupKeys : List (PyStr × JVal) → Bool
  | [] => true
  | m :: ms => !(ms.any (fun e => e.1 = m.1)) && noDupKeys ms

mutual
/-- Well-formedness of a parsed JSON value: every object node has
pairwise-distinct keys (an invariant of everything `pyJsonLoads`
produces). -/
def wfV : JVal → Bool
  | .jarr xs => wfI xs
  | .jobj ms => noDupKeys ms && wfM ms
  | _ => true

/-- Well-formedness of array elements. -/
def wfI : List JVal → Bool
  | [] => true
  | x :: xs => wfV x && wfI xs

/-- Well-formedness of object member values. -/
def wfM : List (PyStr × JVal) → Bool
  | [] => true
  | m :: ms => wfV m.2 && wfM ms
end

mutual
/-- Fuel sufficient for `parseVal` to parse this value back. -/
def fneedV : JVal → Nat
  | .jnull => 1
  | .jbool _ => 1
  | .jint _ => 1
  | .jstr _ => 1
  | .jarr [] => 1
  | .jarr (x :: xs) => 1 + fneedI (x :: xs)
  | .jobj [] => 1
  | .jobj (m :: ms) => 1 + fneedM (m :: ms)

/-- Fuel sufficient for `parseItems` on these array elements. -/
def fneedI : List JVal → Nat
  | [] => 1
  | x :: xs => 1 + max (fneedV x) (fneedI xs)

/-- Fuel sufficient for `parseMembers` on these object members. -/
def fneedM : List (PyStr × JVal) → Nat
  | [] => 1
  | m :: ms => 1 + max (fneedV m.2) (fneedM ms)
end

/-- An all-whitespace run in the sense of the JSON scanner. -/
def allJWs (w : PyStr) : Prop := ∀ c ∈ w, jsonWsC c = true

/-- The input ahead does not begin with a decimal digit (so a greedy
number token just parsed cannot be extended into it). -/
def noDigHead (r : PyStr) : Prop := ∀ c ∈ r.take 1, isDigitC c = false

/-- The continuation of `parseItems` after its element value: comma and
recursion, or closing bracket. -/
def piAfterVal (f : Nat) : JVal × PyStr → Option (List JVal × PyStr)
  | (v, s) =>
      match skipWs s with
      | ',' :: rest2 => (parseItems f rest2).map (fun t => (v :: t.1, t.2))
      | ']' :: rest2 => some ([v], rest2)
      | _ => none

/-- The continuation of `parseMembers` after a member value: comma and
recursion, or closing brace. -/
def pmAfterVal (f : Nat) (k : PyStr) :
    JVal × PyStr → Option (List (PyStr × JVal) × PyStr)
  | (v, s) =>
      match skipWs s with
      | ',' :: rest4 => (parseMembers f rest4).map (fun t => ((k, v) :: t.1, t.2))
      | '\x7d' :: rest4 => some ([(k, v)], rest4)
      | _ => none

/-- The continuation of `parseMembers` after a member key: colon, then
the value. -/
def pmAfterKey (f : Nat) :
    PyStr × PyStr → Option (List (PyStr × JVal) × PyStr)
  | (k, s) =>
      match skipWs s with
      | ':' :: rest2 => Bind.bind (parseVal f rest2) (pmAfterVal f k)
      | _ => none

/-- C6: for every text T, `format_text(T, "sentence")` returns the
segments of T split on periods, each segment capitalized and trimmed,
rejoined with `". "`. -/
theorem c6_format_sentence (t : PyStr) :
    List.lookup "formatted" (format_text t (pys "sentence")) =
      some (PyVal.vStr (sentenceSpec t)) := rfl

/-- C3: `get_environment_variable` never reports an error; a variable set
to the empty string yields `exists = true`, `value = ""`; an absent
variable yields `exists = false`, `value = None`. -/
theorem c3_get_env (env : EnvVars) (name : PyStr) :
    List.lookup "error" (get_environment_variable env name) = none ∧
    (envGet env name = some [] →
      List.lookup "value" (get_environment_variable env name) =
          some (PyVal.vStr []) ∧
        List.lookup "exists" (get_environment_variable env name) =
          some (PyVal.vBool true)) ∧
    (envGet env name = none →
      List.lookup "value" (get_environment_variable env name) =
          some PyVal.vNone ∧
        List.lookup "exists" (get_environment_variable env name) =
          some (PyVal.vBool false)) := by
  refine ⟨rfl, fun h => ?_, fun h => ?_⟩ <;>
    simp [get_environment_variable, h, List.lookup]

/-- Witness for C3 at concrete inputs: a variable set to the empty string
and an unset variable. -/
theorem c3_get_env_witness :
    (List.lookup "value" (get_environment_variable [(pys "EMPTY", [])]
        (pys "EMPTY")) = some (PyVal.vStr []) ∧
      List.lookup "exists" (get_environment_variable [(pys "EMPTY", [])]
        (pys "EMPTY")) = some (PyVal.vBool true)) ∧
    (List.lookup "value" (get_environment_variable []
        (pys "SOME_UNSET_VAR_xyz")) = some PyVal.vNone ∧
      List.lookup "exists" (get_environment_variable []
        (pys "SOME_UNSET_VAR_xyz")) = some (PyVal.vBool false)) :=
  ⟨(c3_get_env [(pys "EMPTY", [])] (pys "EMPTY")).2.1 rfl,
   (c3_get_env [] (pys "SOME_UNSET_VAR_xyz")).2.2 rfl⟩

/-- C10: whenever `run_command` completes without an exception or
timeout, its envelope's `success` field is true exactly when the reported
`return_code` is zero. -/
theorem c10_run_command_success (cmd wd out err : PyStr) (rc : Int) :
    List.lookup "return_code" (run_command cmd wd (.done rc out err)) =
        some (PyVal.vInt rc) ∧
      List.lookup "success" (run_command cmd wd (.done rc out err)) =
        some (PyVal.vBool (decide (rc = 0))) := by
  refine ⟨rfl, ?_⟩
  by_cases h : rc = 0 <;> simp [run_command, List.lookup, h]

/-- Creating ancestor directories that already exist leaves the
filesystem unchanged. -/
theorem mkdirAncestors_noop (fs : FS) (l : List FPath)
    (h : ∀ q ∈ l, fsLookup fs q = some FNode.dir) :
    mkdirAncestors fs l = .ok fs := by
  induction l with
  | nil => rfl
  | cons q rest ih =>
      have hq := h q (by simp)
      rw [mkdirAncestors, hq]
      exact ih (fun r hr => h r (by simp [hr]))

/-- C2: on an existing regular file, `create_file` with `overwrite=false`
returns an error envelope and leaves the file's content unchanged, while
`overwrite=true` replaces the content with the given one. -/
theorem c2_create_file (fs : FS) (p : FPath) (c0 c : PyStr) (sz : Nat)
    (mt ct now : Int) (fmtTime : Int → PyStr)
    (hf : fsLookup fs p = some (FNode.file (some c0) sz mt ct))
    (hanc : ∀ q ∈ properAncestors p, fsLookup fs q = some FNode.dir) :
    (isErrEnv (create_file fs p c false now fmtTime).2 ∧
      (create_file fs p c false now fmtTime).1 = fs ∧
      fileText (create_file fs p c false now fmtTime).1 p = some c0) ∧
    (fileText (create_file fs p c true now fmtTime).1 p = some c ∧
      List.lookup "success" (create_file fs p c true now fmtTime).2 =
        some (PyVal.vBool true)) := by
  have hex : fsExists fs p = true := by simp [fsExists, hf]
  have hcond : (fsExists fs p && !false) = true := by simp [hex]
  constructor
  · rw [create_file, if_pos hcond]
    exact ⟨⟨_, rfl⟩, rfl, by simp [fileText, hf]⟩
  · have hcond2 : ¬((fsExists fs p && !true) = true) := by simp
    have hw : writeFileFs fs p c now =
        .ok ((p, FNode.file (some c) (utf8Len c) now now) :: fs) := by
      rw [writeFileFs.eq_def, hf]
    rw [create_file, if_neg hcond2, mkdirAncestors_noop fs _ hanc]
    simp only [hw]
    constructor
    · simp [fileText, fsLookup, List.find?]
    · rfl

/-- Witness for C2: an existing one-component file with content `"old"`,
overwritten with `"new"`. -/
theorem c2_create_file_witness :
    (isErrEnv (create_file [([pys "a.txt"],
        FNode.file (some (pys "old")) 3 0 0)] [pys "a.txt"] (pys "new")
        false 5 (fun _ => [])).2 ∧
      (create_file [([pys "a.txt"], FNode.file (some (pys "old")) 3 0 0)]
        [pys "a.txt"] (pys "new") false 5 (fun _ => [])).1 =
        [([pys "a.txt"], FNode.file (some (pys "old")) 3 0 0)] ∧
      fileText (create_file [([pys "a.txt"],
        FNode.file (some (pys "old")) 3 0 0)] [pys "a.txt"] (pys "new")
        false 5 (fun _ => [])).1 [pys "a.txt"] = some (pys "old")) ∧
    (fileText (create_file [([pys "a.txt"],
        FNode.file (some (pys "old")) 3 0 0)] [pys "a.txt"] (pys "new")
        true 5 (fun _ => [])).1 [pys "a.txt"] = some (pys "new") ∧
      List.lookup "success" (create_file [([pys "a.txt"],
        FNode.file (some (pys "old")) 3 0 0)] [pys "a.txt"] (pys "new")
        true 5 (fun _ => [])).2 = some (PyVal.vBool true)) :=
  c2_create_file [([pys "a.txt"], FNode.file (some (pys "old")) 3 0 0)]
    [pys "a.txt"] (pys "old") (pys "new") 3 0 0 5 (fun _ => [])
    rfl (by simp [properAncestors])

/-- Splitting a list by two mutually exclusive, jointly exhaustive
predicates partitions its length. -/
theorem filter_split_length {α : Type} (l : List α) (p q : α → Bool)
    (h : ∀ x ∈ l, p x = true ∨ q x = true)
    (hx : ∀ x ∈ l, ¬(p x = true ∧ q x = true)) :
    (l.filter p).length + (l.filter q).length = l.length := by
  induction l with
  | nil => simp
  | cons a t ih =>
      have ha := h a (by simp)
      have hxa := hx a (by simp)
      have iht := ih (fun x hxm => h x (by simp [hxm]))
        (fun x hxm => hx x (by simp [hxm]))
      rcases ha with hp | hq
      · have hqa : q a = false := by
          cases h' : q a
          · rfl
          · exact absurd ⟨hp, h'⟩ hxa
        simp [List.filter_cons, hp, hqa]
        omega
      · have hpa : p a = false := by
          cases h' : p a
          · rfl
          · exact absurd ⟨h', hq⟩ hxa
        simp [List.filter_cons, hq, hpa]
        omega


unseal fnmatch in
/-- Counterexample to C4 as stated: in an existing directory whose single
glob match is neither a regular file nor a directory, `list_files`
reports `total_files = 0` and `total_dirs = 0`, while the total number of
glob matches is 1 — the two lists do not partition the matches. -/
theorem c4_counterexample :
    fsLookup fsBroken [pys "d"] = some FNode.dir ∧
    (globMatches fsBroken [pys "d"] (pys "*")).length = 1 ∧
    List.lookup "total_files" (list_files fsBroken [pys "d"] (pys "*")) =
      some (PyVal.vInt 0) ∧
    List.lookup "total_dirs" (list_files fsBroken [pys "d"] (pys "*")) =
      some (PyVal.vInt 0) :=
  ⟨rfl, rfl, rfl, rfl⟩

/-- C4 (amended): for a pattern that `pathlib` accepts — and is
slash-free and `**`-free, the fragment on which `globMatches` models the
child matching exactly — `list_files` on an existing directory
partitions those matches that are regular files or directories: the two
lists are disjoint, and whenever every match is a regular file or a
directory (no broken symlinks or other special nodes),
`total_files + total_dirs` equals the total number of glob matches.
A pattern `pathlib` rejects is reported as an error envelope instead. -/
theorem c4_amended (fs : FS) (root : FPath) (pattern : PyStr)
    (hpat : globPatError pattern = none)
    (hns : '/' ∉ pattern)
    (hnd : containsSub (pys "**") pattern = false)
    (hroot : fsLookup fs root = some FNode.dir)
    (hall : ∀ m ∈ globMatches fs root pattern,
      isFileN m.2 = true ∨ isDirN m.2 = true) :
    List.lookup "total_files" (list_files fs root pattern) =
      some (PyVal.vInt
        ((globMatches fs root pattern).filter (fun m => isFileN m.2)).length) ∧
    List.lookup "total_dirs" (list_files fs root pattern) =
      some (PyVal.vInt
        ((globMatches fs root pattern).filter (fun m => isDirN m.2)).length) ∧
    ((globMatches fs root pattern).filter (fun m => isFileN m.2)).length +
        ((globMatches fs root pattern).filter (fun m => isDirN m.2)).length =
      (globMatches fs root pattern).length ∧
    (∀ m ∈ globMatches fs root pattern,
      ¬(isFileN m.2 = true ∧ isDirN m.2 = true)) ∧
    (∀ pat em, globPatError pat = some em →
      list_files fs root pat = errEnv em) := by
  have hdisj : ∀ m ∈ globMatches fs root pattern,
      ¬(isFileN m.2 = true ∧ isDirN m.2 = true) := by
    intro m _ hm
    cases h2 : m.2 <;> rw [h2] at hm <;> simp [isFileN, isDirN] at hm
  refine ⟨?_, ?_, ?_, hdisj, ?_⟩
  · rw [list_files, hpat]
    dsimp only
    rw [hroot]
    rfl
  · rw [list_files, hpat]
    dsimp only
    rw [hroot]
    rfl
  · exact filter_split_length _ _ _ hall hdisj
  · intro pat em hbad
    rw [list_files, hbad]

unseal fnmatch in
/-- Witness for the amended C4 on a directory holding one regular file
and one subdirectory. -/
theorem c4_amended_witness :
    List.lookup "total_files" (list_files
        [([pys "d"], FNode.dir),
         ([pys "d", pys "a"], FNode.file (some []) 0 0 0),
         ([pys "d", pys "s"], FNode.dir)] [pys "d"] (pys "*")) =
      some (PyVal.vInt 1) ∧
    List.lookup "total_dirs" (list_files
        [([pys "d"], FNode.dir),
         ([pys "d", pys "a"], FNode.file (some []) 0 0 0),
         ([pys "d", pys "s"], FNode.dir)] [pys "d"] (pys "*")) =
      some (PyVal.vInt 1) := by
  have h := c4_amended
    [([pys "d"], FNode.dir),
     ([pys "d", pys "a"], FNode.file (some []) 0 0 0),
     ([pys "d", pys "s"], FNode.dir)] [pys "d"] (pys "*")
    rfl (by decide) (by decide) rfl (by decide)
  exact ⟨h.1.trans rfl, h.2.1.trans rfl⟩

/-- `startsWithL` recognises exactly the prefixes. -/
theorem startsWithL_iff (n h : PyStr) :
    startsWithL n h = true ↔ ∃ t, h = n ++ t := by
  induction n generalizing h with
  | nil => simp [startsWithL]
  | cons a n ih =>
      cases h with
      | nil =>
          simp [startsWithL]
      | cons b t =>
          simp only [startsWithL, Bool.and_eq_true, decide_eq_true_eq, ih]
          constructor
          · rintro ⟨rfl, u, rfl⟩
            exact ⟨u, rfl⟩
          · rintro ⟨u, hu⟩
            injection hu with h1 h2
            exact ⟨h1.symm, u, h2⟩

/-- `containsSub` recognises exactly the contiguous substrings. -/
theorem containsSub_iff (n h : PyStr) :
    containsSub n h = true ↔ ∃ pre post, h = pre ++ n ++ post := by
  induction h with
  | nil =>
      rw [containsSub]
      simp only [Bool.or_false, startsWithL_iff]
      constructor
      · rintro ⟨t, ht⟩
        exact ⟨[], t, ht⟩
      · rintro ⟨pre, post, hp⟩
        have h0 := List.append_eq_nil.mp hp.symm
        have h1 := List.append_eq_nil.mp h0.1
        exact ⟨post, by simp [h1.2, h0.2]⟩
  | cons b t ih =>
      rw [containsSub]
      simp only [Bool.or_eq_true, startsWithL_iff, ih]
      constructor
      · rintro (⟨u, hu⟩ | ⟨pre, post, hp⟩)
        · exact ⟨[], u, by simp [hu]⟩
        · exact ⟨b :: pre, post, by simp [hp]⟩
      · rintro ⟨pre, post, hp⟩
        cases pre with
        | nil => exact Or.inl ⟨post, by simpa using hp⟩
        | cons p ps =>
            right
            injection hp with h1 h2
            exact ⟨ps, post, h2⟩

/-- Substring occurrence is preserved by mapping a character function. -/
theorem containsSub_map (f : Char → Char) (n h : PyStr)
    (hc : containsSub n h = true) :
    containsSub (n.map f) (h.map f) = true := by
  rcases (containsSub_iff n h).mp hc with ⟨pre, post, rfl⟩
  exact (containsSub_iff _ _).mpr ⟨pre.map f, post.map f, by simp⟩

/-- Substring occurrence is transitive. -/
theorem containsSub_trans (a b c : PyStr)
    (h1 : containsSub a b = true) (h2 : containsSub b c = true) :
    containsSub a c = true := by
  rcases (containsSub_iff a b).mp h1 with ⟨p1, q1, rfl⟩
  rcases (containsSub_iff _ c).mp h2 with ⟨p2, q2, rfl⟩
  exact (containsSub_iff a _).mpr ⟨p2 ++ p1, q1 ++ q2, by simp⟩

/-- The unfolding equation of `fnmatch` for a leading `*`. -/
theorem fnmatch_star_eq (pat s : PyStr) : fnmatch ('*' :: pat) s =
    (fnmatch pat s ||
      (match s with
       | [] => false
       | _ :: s' => fnmatch ('*' :: pat) s')) := by
  rw [fnmatch.eq_def]
  split <;> simp_all
  all_goals rename_i hstar hq heq
  all_goals exact absurd heq.1.symm hstar

/-- A leading `*` in a glob pattern absorbs any prefix of the name. -/
theorem fnmatch_star (pat base suffix : PyStr)
    (h : fnmatch pat suffix = true) :
    fnmatch ('*' :: pat) (base ++ suffix) = true := by
  induction base with
  | nil => rw [fnmatch_star_eq]; simp [h]
  | cons c base ih => rw [List.cons_append, fnmatch_star_eq]; simp [ih]

/-- C5 counterexample: the scenario calls the handler with
`file_type = "*.txt"`, so the code builds the `rglob` pattern `**.txt`;
`pathlib` rejects a component that contains `**` without being exactly
`**`, the handler catches the `ValueError` into an error envelope, and
no `results` field is reported at all — even though a matching `.txt`
file with the queried content is present in the directory. -/
theorem c5_counterexample :
    search_files fsSearch [pys "r"] (pys "hello") (pys "*.txt")
        (fun _ => pys "t") =
      errEnv
        (pys "Invalid pattern: ** can only be an entire path component") ∧
    List.lookup "results"
        (search_files fsSearch [pys "r"] (pys "hello") (pys "*.txt")
          (fun _ => pys "t")) = none :=
  ⟨rfl, rfl⟩

unseal fnmatch in
/-- C5 (amended): with the working extension filter `".txt"` (the
handler itself prefixes the `*`), a regular `.txt` file under the
searched directory whose decodable text contains `"Hello World"` is
included in the results of a search for `"hello"` (the substring match
is case-insensitive), reported with its byte size and its formatted
last-modified timestamp. -/
theorem c5_amended (fs : FS) (root : FPath) (fmtTime : Int → PyStr)
    (qpath : FPath) (r0 base : PyStr) (rrest : List PyStr)
    (content : PyStr) (size : Nat) (mtime ct : Int)
    (hroot : fsLookup fs root = some FNode.dir)
    (hmem : (qpath, FNode.file (some content) size mtime ct) ∈ fs)
    (hstrip : stripRoot root qpath = some (r0 :: rrest))
    (hname : lastName (r0 :: rrest) = base ++ pys ".txt")
    (hq : containsSub (pys "Hello World") content = true) :
    ∃ results,
      List.lookup "results"
          (search_files fs root (pys "hello") (pys ".txt") fmtTime) =
        some (PyVal.vList results) ∧
      PyVal.vDict
          [(pys "file", PyVal.vStr (joinSlash (r0 :: rrest))),
           (pys "size", PyVal.vInt size),
           (pys "modified", PyVal.vStr (fmtTime mtime))] ∈ results := by
  have hfn : fnmatch ('*' :: pys ".txt") (lastName (r0 :: rrest)) = true := by
    rw [hname]
    exact fnmatch_star (pys ".txt") base (pys ".txt") (by decide)
  have hmatch : (r0 :: rrest, FNode.file (some content) size mtime ct) ∈
      rglobMatches fs root ('*' :: pys ".txt") := by
    rw [rglobMatches]
    refine List.mem_filterMap.mpr
      ⟨(qpath, FNode.file (some content) size mtime ct), hmem, ?_⟩
    simp only [hstrip, hfn, if_true]
  have hlow : containsSub (lowerStr (pys "hello")) (lowerStr content) = true := by
    have h1 : containsSub (pys "hello world") (lowerStr content) = true := by
      have := containsSub_map lowerC (pys "Hello World") content hq
      simpa [lowerStr] using this
    have h2 : containsSub (pys "hello") (pys "hello world") = true := by decide
    have := containsSub_trans (pys "hello") (pys "hello world")
      (lowerStr content) h2 h1
    simpa [lowerStr] using this
  have hne : pys ".txt" ≠ pys "*" := by decide
  rw [search_files, if_pos hne, hroot]
  refine ⟨_, rfl, ?_⟩
  refine List.mem_filterMap.mpr
    ⟨(r0 :: rrest, FNode.file (some content) size mtime ct), hmatch, ?_⟩
  simp only [hlow, if_true]

unseal fnmatch in
/-- Witness for the amended C5 on `fsSearch`. -/
theorem c5_amended_witness :
    List.lookup "results"
        (search_files fsSearch [pys "r"] (pys "hello") (pys ".txt")
          (fun _ => pys "t")) =
      some (PyVal.vList
        [PyVal.vDict
          [(pys "file", PyVal.vStr (pys "notes.txt")),
           (pys "size", PyVal.vInt 16),
           (pys "modified", PyVal.vStr (pys "t"))]]) ∧
    PyVal.vDict
        [(pys "file", PyVal.vStr (pys "notes.txt")),
         (pys "size", PyVal.vInt 16),
         (pys "modified", PyVal.vStr (pys "t"))] ∈
      [PyVal.vDict
        [(pys "file", PyVal.vStr (pys "notes.txt")),
         (pys "size", PyVal.vInt 16),
         (pys "modified", PyVal.vStr (pys "t"))]] := by
  obtain ⟨R, h1, h2⟩ := c5_amended fsSearch [pys "r"] (fun _ => pys "t")
    [pys "r", pys "notes.txt"] (pys "notes.txt") (pys "notes") []
    (pys "say Hello World!") 16 7 7 rfl (by simp [fsSearch]) rfl rfl
    (by decide)
  have he : PyVal.vList R = PyVal.vList
      [PyVal.vDict
        [(pys "file", PyVal.vStr (pys "notes.txt")),
         (pys "size", PyVal.vInt 16),
         (pys "modified", PyVal.vStr (pys "t"))]] := by
    have h3 := h1.symm.trans (rfl :
      List.lookup "results"
        (search_files fsSearch [pys "r"] (pys "hello") (pys ".txt")
          (fun _ => pys "t")) =
      some (PyVal.vList
        [PyVal.vDict
          [(pys "file", PyVal.vStr (pys "notes.txt")),
           (pys "size", PyVal.vInt 16),
           (pys "modified", PyVal.vStr (pys "t"))]]))
    injection h3
  injection he with he'
  exact ⟨he' ▸ h1, he' ▸ h2⟩


/-- `takeWhile` runs through a block that wholly satisfies the predicate. -/
theorem takeWhile_append_all (p : Char → Bool) (l r : List Char)
    (h : ∀ a ∈ l, p a = true) :
    (l ++ r).takeWhile p = l ++ r.takeWhile p := by
  induction l with
  | nil => simp
  | cons a t ih =>
      have ha := h a (by simp)
      simp only [List.cons_append, List.takeWhile_cons, ha, if_true]
      rw [ih (fun x hx => h x (by simp [hx]))]

/-- `dropWhile` runs through a block that wholly satisfies the predicate. -/
theorem dropWhile_append_all (p : Char → Bool) (l r : List Char)
    (h : ∀ a ∈ l, p a = true) :
    (l ++ r).dropWhile p = r.dropWhile p := by
  induction l with
  | nil => simp
  | cons a t ih =>
      have ha := h a (by simp)
      simp only [List.cons_append, List.dropWhile_cons, ha, if_true]
      exact ih (fun x hx => h x (by simp [hx]))

/-- An all-whitespace string splits to no words. -/
theorem pySplitWs_all_ws (s : PyStr) (h : ∀ c ∈ s, isPyWs c = true) :
    pySplitWs s = [] := by
  induction s with
  | nil => rw [pySplitWs]
  | cons c t ih =>
      rw [pySplitWs]
      simp only [h c (by simp), if_true]
      exact ih (fun x hx => h x (by simp [hx]))

/-- Leading whitespace is skipped by `str.split()`. -/
theorem pySplitWs_ws_append (g t : PyStr) (h : ∀ c ∈ g, isPyWs c = true) :
    pySplitWs (g ++ t) = pySplitWs t := by
  induction g with
  | nil => simp
  | cons c gtl ih =>
      rw [List.cons_append, pySplitWs]
      simp only [h c (by simp), if_true]
      exact ih (fun x hx => h x (by simp [hx]))

/-- A maximal non-whitespace run at the front of the input is produced as
the next word. -/
theorem pySplitWs_word_append (w rest : PyStr) (hne : w ≠ [])
    (hw : ∀ c ∈ w, isPyWs c = false) (hrest : headWs rest) :
    pySplitWs (w ++ rest) = w :: pySplitWs rest := by
  cases w with
  | nil => exact absurd rfl hne
  | cons c w' =>
      rw [List.cons_append, pySplitWs]
      have hc := hw c (by simp)
      simp only [hc, Bool.false_eq_true, if_false]
      have htk : (w' ++ rest).takeWhile (fun x => !isPyWs x) = w' := by
        rw [takeWhile_append_all _ _ _
          (fun a ha => by simp [hw a (by simp [ha])])]
        have : rest.takeWhile (fun x => !isPyWs x) = [] := by
          cases rest with
          | nil => rfl
          | cons r t =>
              have := hrest r (by simp)
              simp [List.takeWhile_cons, this]
        simp [this]
      have hdr : (w' ++ rest).dropWhile (fun x => !isPyWs x) = rest := by
        rw [dropWhile_append_all _ _ _
          (fun a ha => by simp [hw a (by simp [ha])])]
        cases rest with
        | nil => rfl
        | cons r t =>
            have := hrest r (by simp)
            simp [List.dropWhile_cons, this]
      rw [htk, hdr]

/-- Splitting an assembled text recovers exactly its word list, provided
the gaps are whitespace, the words are non-empty and whitespace-free, and
every gap between two consecutive words is non-empty. -/
theorem pySplitWs_assemble (ws : List PyStr) : ∀ gaps : List PyStr,
    gaps.length = ws.length + 1 →
    (∀ g ∈ gaps, ∀ c ∈ g, isPyWs c = true) →
    (∀ w ∈ ws, w ≠ [] ∧ ∀ c ∈ w, isPyWs c = false) →
    (∀ g ∈ (gaps.drop 1).dropLast, g ≠ []) →
    pySplitWs (assemble gaps ws) = ws := by
  induction ws with
  | nil =>
      intro gaps hlen hg _ _
      rw [assemble]
      refine pySplitWs_all_ws _ (fun c hc => ?_)
      rcases List.mem_flatten.mp hc with ⟨g, hgm, hcg⟩
      exact hg g hgm c hcg
  | cons w ws' ih =>
      intro gaps hlen hg hw hint
      match gaps, hlen with
      | g0 :: g1 :: gs, hlen =>
        rw [assemble, pySplitWs_ws_append _ _ (hg g0 (by simp))]
        have hws' : ∀ x ∈ ws', x ≠ [] ∧ ∀ c ∈ x, isPyWs c = false :=
          fun x hx => hw x (by simp [hx])
        have hg' : ∀ g ∈ g1 :: gs, ∀ c ∈ g, isPyWs c = true :=
          fun g hgm => hg g (by simp [hgm])
        have hlen' : (g1 :: gs).length = ws'.length + 1 := by
          simpa using hlen
        have hint' : ∀ g ∈ ((g1 :: gs).drop 1).dropLast, g ≠ [] := by
          intro g hgm
          refine hint g ?_
          simp only [List.drop_one, List.tail_cons] at hgm ⊢
          cases gs with
          | nil => simp at hgm
          | cons a l =>
              rw [List.dropLast_cons₂]
              exact List.mem_cons.mpr (Or.inr (by simpa using hgm))
        have hhead : headWs (assemble (g1 :: gs) ws') := by
          cases ws' with
          | nil =>
              rw [assemble]
              intro c hc
              rcases List.mem_flatten.mp (List.mem_of_mem_take hc) with
                ⟨g, hgm, hcg⟩
              exact hg' g hgm c hcg
          | cons w' ws'' =>
              have hg1ne : g1 ≠ [] := by
                refine hint g1 ?_
                simp only [List.drop_one, List.tail_cons]
                cases gs with
                | nil => simp at hlen'
                | cons a l => rw [List.dropLast_cons₂]; simp
              rw [assemble]
              cases hg1 : g1 with
              | nil => exact absurd hg1 hg1ne
              | cons c t =>
                  intro x hx
                  simp only [hg1, List.cons_append, List.take_succ_cons,
                    List.take_zero, List.mem_singleton] at hx
                  subst hx
                  exact hg' g1 (by simp) x (by simp [hg1])
        rw [pySplitWs_word_append w _ (hw w (by simp)).1
          (hw w (by simp)).2 hhead]
        rw [ih (g1 :: gs) hlen' hg' hws' hint']

/-- The length of an assembled text is the total gap length plus the
total word length. -/
theorem assemble_length (ws : List PyStr) : ∀ gaps : List PyStr,
    (assemble gaps ws).length =
      (gaps.map List.length).sum + (ws.map List.length).sum := by
  induction ws with
  | nil =>
      intro gaps
      rw [assemble]
      simp [List.length_flatten, Function.comp]
  | cons w ws' ih =>
      intro gaps
      cases gaps with
      | nil =>
          rw [assemble]
          simp [ih []]
          try omega
      | cons g gs =>
          rw [assemble]
          simp [ih gs]
          omega

/-- C9: shuffling only the order of a text's words (same whitespace gaps,
permuted word list) preserves `word_count`, `character_count`,
`average_word_length`, and `unique_words`. -/
theorem c9_count_words_shuffle (gaps ws ws' : List PyStr)
    (hlen : gaps.length = ws.length + 1)
    (hg : ∀ g ∈ gaps, ∀ c ∈ g, isPyWs c = true)
    (hw : ∀ w ∈ ws, w ≠ [] ∧ ∀ c ∈ w, isPyWs c = false)
    (hint : ∀ g ∈ (gaps.drop 1).dropLast, g ≠ [])
    (hperm : ws.Perm ws') :
    List.lookup "word_count" (count_words (assemble gaps ws)) =
        List.lookup "word_count" (count_words (assemble gaps ws')) ∧
      List.lookup "character_count" (count_words (assemble gaps ws)) =
        List.lookup "character_count" (count_words (assemble gaps ws')) ∧
      List.lookup "average_word_length" (count_words (assemble gaps ws)) =
        List.lookup "average_word_length" (count_words (assemble gaps ws')) ∧
      List.lookup "unique_words" (count_words (assemble gaps ws)) =
        List.lookup "unique_words" (count_words (assemble gaps ws')) := by
  have e1 : pySplitWs (assemble gaps ws) = ws :=
    pySplitWs_assemble ws gaps hlen hg hw hint
  have e2 : pySplitWs (assemble gaps ws') = ws' :=
    pySplitWs_assemble ws' gaps (by rw [hlen, hperm.length_eq])
      hg (fun w hwm => hw w (hperm.mem_iff.mpr hwm)) hint
  have hlen2 : ws.length = ws'.length := hperm.length_eq
  have hsum : ((ws.map List.length).sum : Nat) = (ws'.map List.length).sum :=
    (hperm.map List.length).sum_eq
  have hchar : (assemble gaps ws).length = (assemble gaps ws').length := by
    rw [assemble_length, assemble_length, hsum]
  have hded : ws.dedup.length = ws'.dedup.length := hperm.dedup.length_eq
  refine ⟨?_, ?_, ?_, ?_⟩
  · simp [count_words, List.lookup, e1, e2, hlen2]
  · simp [count_words, List.lookup, hchar]
  · simp only [count_words, List.lookup, e1, e2]
    rw [hlen2, hsum]
    simp
  · simp [count_words, List.lookup, e1, e2, hded]

unseal pySplitWs in
/-- Witness for C9: `"a b"` against `"b a"` (gaps `["", " ", ""]`,
words `["a", "b"]` and the swapped `["b", "a"]`). -/
theorem c9_count_words_shuffle_witness :
    List.lookup "word_count"
        (count_words (assemble [[], [' '], []] [pys "a", pys "b"])) =
      List.lookup "word_count"
        (count_words (assemble [[], [' '], []] [pys "b", pys "a"])) ∧
    List.lookup "character_count"
        (count_words (assemble [[], [' '], []] [pys "a", pys "b"])) =
      List.lookup "character_count"
        (count_words (assemble [[], [' '], []] [pys "b", pys "a"])) ∧
    List.lookup "average_word_length"
        (count_words (assemble [[], [' '], []] [pys "a", pys "b"])) =
      List.lookup "average_word_length"
        (count_words (assemble [[], [' '], []] [pys "b", pys "a"])) ∧
    List.lookup "unique_words"
        (count_words (assemble [[], [' '], []] [pys "a", pys "b"])) =
      List.lookup "unique_words"
        (count_words (assemble [[], [' '], []] [pys "b", pys "a"])) :=
  c9_count_words_shuffle [[], [' '], []] [pys "a", pys "b"]
    [pys "b", pys "a"] rfl (by decide) (by decide) (by decide)
    (List.Perm.swap (pys "b") (pys "a") [])

/-- Floor of the second-valued difference divided by 86400 equals the
floor-division day count `timedelta` normalisation produces. -/
theorem floor_div_micro (diff : Int) :
    ⌊((diff : ℚ) / 1000000) / 86400⌋ = Int.fdiv diff 86400000000 := by
  rw [div_div, Int.fdiv_eq_ediv _ (by norm_num)]
  have h := Rat.floor_intCast_div_natCast diff 86400000000
  norm_num at h
  convert h using 2
  norm_num

/-- C7 (amended): for parseable ISO timestamps of matching awareness
(both naive or both offset-aware), swapping the endpoints negates
`difference_seconds`, and for positive differences `difference_days` is
the floor of `difference_seconds / 86400`. -/
theorem c7_amended (A B : PyStr) (a b : PyDateTime)
    (strp : PyStr → PyStr → Option PyDateTime)
    (ha : pyFromIso A = some a) (hb : pyFromIso B = some b)
    (hsame : a.off.isSome = b.off.isSome) :
    ∃ s : ℚ,
      List.lookup "difference_seconds"
          (calculate_time_difference A B (pys "iso") strp) =
        some (PyVal.vRat s) ∧
      List.lookup "difference_seconds"
          (calculate_time_difference B A (pys "iso") strp) =
        some (PyVal.vRat (-s)) ∧
      (0 < s →
        List.lookup "difference_days"
            (calculate_time_difference A B (pys "iso") strp) =
          some (PyVal.vInt ⌊s / 86400⌋)) := by
  have hdiff : ∃ diff : Int,
      pyTimeDiff a b = .ok diff ∧ pyTimeDiff b a = .ok (-diff) := by
    cases hao : a.off with
    | none =>
        cases hbo : b.off with
        | none =>
            refine ⟨toMicros b - toMicros a, ?_, ?_⟩
            · rw [pyTimeDiff.eq_def, hao, hbo]
            · have he : toMicros a - toMicros b =
                  -(toMicros b - toMicros a) := by ring
              rw [pyTimeDiff.eq_def, hbo, hao, he]
        | some ob => rw [hao, hbo] at hsame; simp at hsame
    | some oa =>
        cases hbo : b.off with
        | none => rw [hao, hbo] at hsame; simp at hsame
        | some ob =>
            refine ⟨utcMicros b - utcMicros a, ?_, ?_⟩
            · rw [pyTimeDiff.eq_def, hao, hbo]
            · have he : utcMicros a - utcMicros b =
                  -(utcMicros b - utcMicros a) := by ring
              rw [pyTimeDiff.eq_def, hbo, hao, he]
  obtain ⟨diff, hab, hba⟩ := hdiff
  refine ⟨(diff : ℚ) / 1000000, ?_, ?_, ?_⟩
  · simp [calculate_time_difference, ha, hb, hab, List.lookup]
  · simp [calculate_time_difference, ha, hb, hba, List.lookup, neg_div]
  · intro _
    simp [calculate_time_difference, ha, hb, hab, List.lookup,
      floor_div_micro]


/-- Counterexample to C7 as stated: both timestamps are parseable
(`fromisoformat` accepts an explicit UTC offset), yet because one is
offset-aware and the other naive, the subtraction raises, the handler
reports an error envelope, and no `difference_seconds` is reported at
all — so the additive-inverse property fails for these parseable
inputs. -/
theorem c7_counterexample :
    (pyFromIso (pys "2024-01-01T00:00:00+00:00")).isSome = true ∧
    (pyFromIso (pys "2024-01-01T00:00:00")).isSome = true ∧
    calculate_time_difference (pys "2024-01-01T00:00:00+00:00")
        (pys "2024-01-01T00:00:00") (pys "iso") strpNone =
      errEnv (pys "cannot subtract offset-naive and offset-aware datetimes") ∧
    List.lookup "difference_seconds"
        (calculate_time_difference (pys "2024-01-01T00:00:00+00:00")
          (pys "2024-01-01T00:00:00") (pys "iso") strpNone) = none :=
  ⟨rfl, rfl, rfl, rfl⟩

/-- Witness for the amended C7: `2024-01-01T00:00:00` to
`2024-01-03T01:00:00` is 176400 seconds, and 2 whole days. -/
theorem c7_amended_witness :
    List.lookup "difference_seconds"
        (calculate_time_difference (pys "2024-01-01T00:00:00")
          (pys "2024-01-03T01:00:00") (pys "iso") strpNone) =
      some (PyVal.vRat 176400) ∧
    List.lookup "difference_seconds"
        (calculate_time_difference (pys "2024-01-03T01:00:00")
          (pys "2024-01-01T00:00:00") (pys "iso") strpNone) =
      some (PyVal.vRat (-176400)) ∧
    List.lookup "difference_days"
        (calculate_time_difference (pys "2024-01-01T00:00:00")
          (pys "2024-01-03T01:00:00") (pys "iso") strpNone) =
      some (PyVal.vInt 2) := by
  obtain ⟨s, h1, h2, h3⟩ := c7_amended (pys "2024-01-01T00:00:00")
    (pys "2024-01-03T01:00:00") ⟨2024, 1, 1, 0, 0, 0, 0, none⟩
    ⟨2024, 1, 3, 1, 0, 0, 0, none⟩ strpNone rfl rfl rfl
  have hval : List.lookup "difference_seconds"
      (calculate_time_difference (pys "2024-01-01T00:00:00")
        (pys "2024-01-03T01:00:00") (pys "iso") strpNone) =
      some (PyVal.vRat (((176400000000 : Int) : ℚ) / 1000000)) := rfl
  have h4 := h1.symm.trans hval
  injection h4 with h5
  injection h5 with h6
  have hs : s = 176400 := by rw [h6]; norm_num
  subst hs
  have h6 := h3 (by norm_num)
  have h7 : (⌊(176400 : ℚ) / 86400⌋ : Int) = 2 := by norm_num
  rw [h7] at h6
  exact ⟨h1, h2, h6⟩


/-- `skipWs` runs through a whitespace block. -/
theorem skipWs_ws_append (w t : PyStr) (h : allJWs w) :
    skipWs (w ++ t) = skipWs t :=
  dropWhile_append_all jsonWsC w t h

/-- `skipWs` stops at a non-whitespace character. -/
theorem skipWs_cons_not_ws (c : Char) (t : PyStr) (h : jsonWsC c = false) :
    skipWs (c :: t) = c :: t := by
  simp [skipWs, List.dropWhile_cons, h]

/-- Indentation blocks are whitespace. -/
theorem jIndent_all_ws (k : Nat) : allJWs (jIndent k) := by
  intro c hc
  rw [jIndent] at hc
  rw [List.eq_of_mem_replicate hc]
  rfl

/-- The digit characters emitted for `k < 10` evaluate back to `k`. -/
theorem digitVal_ofNat (k : Nat) (h : k < 10) :
    digitVal (Char.ofNat (48 + k)) = k := by
  interval_cases k <;> rfl

/-- The digit characters emitted for `k < 10` are digits. -/
theorem isDigitC_ofNat (k : Nat) (h : k < 10) :
    isDigitC (Char.ofNat (48 + k)) = true := by
  interval_cases k <;> rfl

/-- The digit character of `k < 10` is `'0'` only for `k = 0`. -/
theorem ofNat_digit_eq_zero (k : Nat) (h : k < 10)
    (he : Char.ofNat (48 + k) = '0') : k = 0 := by
  interval_cases k <;> first | rfl | exact absurd he (by decide)

/-- `natDigits` never returns the empty string. -/
theorem natDigits_ne_nil (n : Nat) : natDigits n ≠ [] := by
  rw [natDigits]
  split
  · simp
  · simp

/-- Every character of `natDigits n` is a decimal digit. -/
theorem natDigits_all_digits (n : Nat) :
    ∀ c ∈ natDigits n, isDigitC c = true := by
  induction n using Nat.strong_induction_on with
  | _ n ih =>
      rw [natDigits]
      split
      · intro c hc
        rename_i h
        rw [List.mem_singleton] at hc
        rw [hc]
        exact isDigitC_ofNat n h
      · intro c hc
        rename_i h
        rcases List.mem_append.mp hc with h1 | h1
        · exact ih (n / 10) (by omega) c h1
        · rw [List.mem_singleton] at h1
          rw [h1]
          exact isDigitC_ofNat (n % 10) (by omega)

/-- Folding the digit-accumulation step from an arbitrary accumulator. -/
theorem digitsVal_foldl_acc (l : PyStr) : ∀ acc : Nat,
    l.foldl (fun a c => 10 * a + digitVal c) acc =
      acc * 10 ^ l.length + digitsVal l := by
  induction l with
  | nil => intro acc; simp [digitsVal]
  | cons c t ih =>
      intro acc
      have hl : digitsVal (c :: t) =
          digitVal c * 10 ^ t.length + digitsVal t := by
        rw [digitsVal, List.foldl_cons]
        have h0 := ih (10 * 0 + digitVal c)
        simpa using h0
      rw [List.foldl_cons, ih, hl]
      simp [List.length_cons]
      ring

/-- `digitsVal` distributes over appending a digit block. -/
theorem digitsVal_append (l1 l2 : PyStr) :
    digitsVal (l1 ++ l2) =
      digitsVal l1 * 10 ^ l2.length + digitsVal l2 := by
  rw [digitsVal, List.foldl_append, digitsVal_foldl_acc]
  rfl

/-- `digitsVal` recovers the number `natDigits` printed. -/
theorem digitsVal_natDigits (n : Nat) : digitsVal (natDigits n) = n := by
  induction n using Nat.strong_induction_on with
  | _ n ih =>
      rw [natDigits]
      split
      · rename_i h
        have h2 := digitVal_ofNat n h
        simp [digitsVal]
        simpa using h2
      · rename_i h
        rw [digitsVal_append]
        have h1 := ih (n / 10) (by omega)
        have h2 := digitVal_ofNat (n % 10) (by omega)
        rw [h1]
        have h3 : digitsVal [Char.ofNat (48 + n % 10)] = n % 10 := by
          simp [digitsVal]
          simpa using h2
        have h4 : (Char.ofNat ('0'.toNat + n % 10)) =
            (Char.ofNat (48 + n % 10)) := rfl
        rw [h4, h3]
        simp
        omega

/-- The leading character of `natDigits n` is `'0'` only when `n = 0`. -/
theorem natDigits_head_zero (n : Nat) : ∀ ds : PyStr,
    natDigits n = '0' :: ds → n = 0 := by
  induction n using Nat.strong_induction_on with
  | _ n ih =>
      intro ds h
      rw [natDigits] at h
      split at h
      · rename_i hlt
        rw [List.cons.injEq] at h
        exact ofNat_digit_eq_zero n hlt h.1
      · rename_i hlt
        exfalso
        cases hd : natDigits (n / 10) with
        | nil => exact natDigits_ne_nil _ hd
        | cons a t =>
            rw [hd, List.cons_append, List.cons.injEq] at h
            have ha : natDigits (n / 10) = '0' :: t := by
              rw [hd, h.1]
            have : n / 10 = 0 := ih (n / 10) (by omega) t ha
            omega

/-- `takeWhile isDigitC` stops exactly at the end of the printed digit
block. -/
theorem takeWhile_digits (ds rest : PyStr)
    (hds : ∀ c ∈ ds, isDigitC c = true) (hr : noDigHead rest) :
    (ds ++ rest).takeWhile isDigitC = ds := by
  rw [takeWhile_append_all isDigitC ds rest hds]
  cases rest with
  | nil => simp
  | cons r t =>
      have := hr r (by simp)
      simp [List.takeWhile_cons, this]

/-- Parsing an unsigned integer token printed by `natDigits`. -/
theorem parseUIntTok_natDigits (m : Nat) (rest : PyStr)
    (hr : noDigHead rest) :
    parseUIntTok (natDigits m ++ rest) = some (m, rest) := by
  by_cases hm : m = 0
  · subst hm
    have h0 : natDigits 0 = ['0'] := by rw [natDigits]; rfl
    rw [h0]
    simp [parseUIntTok]
  · cases hd : natDigits m with
    | nil => exact absurd hd (natDigits_ne_nil m)
    | cons c ds =>
        have hdig : ∀ x ∈ c :: ds, isDigitC x = true := by
          rw [← hd]; exact natDigits_all_digits m
        have hc0 : c ≠ '0' := by
          intro hc
          exact hm (natDigits_head_zero m ds (by rw [hd, hc]))
        rw [List.cons_append, parseUIntTok]
        rw [if_neg hc0, if_pos (hdig c (by simp))]
        have htw : (ds ++ rest).takeWhile isDigitC = ds :=
          takeWhile_digits ds rest (fun x hx => hdig x (by simp [hx])) hr
        rw [htw, List.drop_left]
        have hv : digitsVal (c :: ds) = m := by
          rw [← hd, digitsVal_natDigits]
        rw [hv]

/-- Parsing a signed integer token printed by `str(int)`. -/
theorem parseIntTok_intDec (i : Int) (rest : PyStr) (hr : noDigHead rest) :
    parseIntTok (intDec i ++ rest) = some (i, rest) := by
  by_cases hi : i < 0
  · rw [intDec, if_pos hi, List.cons_append, parseIntTok]
    rw [if_pos rfl, parseUIntTok_natDigits i.natAbs rest hr]
    simp only [Option.map_some']
    have : -(i.natAbs : Int) = i := by omega
    rw [this]
  · rw [intDec, if_neg hi]
    cases hd : natDigits i.natAbs with
    | nil => exact absurd hd (natDigits_ne_nil _)
    | cons c ds =>
        have hdig : isDigitC c = true := by
          have := natDigits_all_digits i.natAbs c (by rw [hd]; simp)
          exact this
        have hcm : c ≠ '-' := by
          intro hc
          rw [hc] at hdig
          exact absurd hdig (by decide)
        have hu : parseUIntTok (c :: (ds ++ rest)) = some (i.natAbs, rest) := by
          rw [← List.cons_append, ← hd]
          exact parseUIntTok_natDigits i.natAbs rest hr
        rw [List.cons_append, parseIntTok, if_neg hcm, hu]
        simp only [Option.map_some']
        have : (i.natAbs : Int) = i := by omega
        rw [this]

/-- Hex digit characters evaluate back to their value. -/
theorem hexDigVal_hexDigChar (k : Nat) (h : k < 16) :
    hexDigVal (hexDigChar k) = some k := by
  interval_cases k <;> rfl

/-- `hexVal4` recovers the value printed by `hex4`. -/
theorem hexVal4_hex4 (n : Nat) (h : n < 65536) :
    hexVal4 (hexDigChar (n / 4096 % 16)) (hexDigChar (n / 256 % 16))
      (hexDigChar (n / 16 % 16)) (hexDigChar (n % 16)) = some n := by
  rw [hexVal4]
  rw [hexDigVal_hexDigChar _ (by omega), hexDigVal_hexDigChar _ (by omega),
    hexDigVal_hexDigChar _ (by omega), hexDigVal_hexDigChar _ (by omega)]
  simp
  omega

/-- `escBody` unfolds one character at a time. -/
theorem escBody_cons (c : Char) (t : PyStr) :
    escBody (c :: t) = escapeChar c ++ escBody t := by
  simp [escBody]

/-- The strict-mode string parser inverts `json.dumps` escaping: parsing
the escaped body followed by the closing quote returns the original
string and the input after the quote. -/
theorem parseStrBody_round (s : PyStr) (rest : PyStr) :
    parseStrBody (escBody s ++ ('"' :: rest)) = some (s, rest) := by
  induction s with
  | nil =>
      rw [escBody]
      simp only [List.map_nil, List.flatten_nil, List.nil_append]
      rw [parseStrBody, if_pos rfl]
  | cons c t ih =>
      rw [escBody_cons, List.append_assoc]
      by_cases h1 : c = '"'
      · subst h1
        rw [show escapeChar '"' = ['\\', '"'] from rfl, List.cons_append,
          List.cons_append, List.nil_append, parseStrBody,
          if_neg (by decide), if_pos rfl, parseEscSeq, if_neg (by decide),
          show escCharOf '"' = some '"' from rfl]
        simp [ih]
      · by_cases h2 : c = '\\'
        · subst h2
          rw [show escapeChar '\\' = ['\\', '\\'] from rfl, List.cons_append,
            List.cons_append, List.nil_append, parseStrBody,
            if_neg (by decide), if_pos rfl, parseEscSeq, if_neg (by decide),
            show escCharOf '\\' = some '\\' from rfl]
          simp [ih]
        · by_cases h3 : c = '\n'
          · subst h3
            rw [show escapeChar '\n' = ['\\', 'n'] from rfl, List.cons_append,
              List.cons_append, List.nil_append, parseStrBody,
              if_neg (by decide), if_pos rfl, parseEscSeq, if_neg (by decide),
              show escCharOf 'n' = some '\n' from rfl]
            simp [ih]
          · by_cases h4 : c = '\x0d'
            · subst h4
              rw [show escapeChar '\x0d' = ['\\', 'r'] from rfl,
                List.cons_append, List.cons_append, List.nil_append,
                parseStrBody, if_neg (by decide), if_pos rfl, parseEscSeq,
                if_neg (by decide),
                show escCharOf 'r' = some '\x0d' from rfl]
              simp [ih]
            · by_cases h5 : c = '\t'
              · subst h5
                rw [show escapeChar '\t' = ['\\', 't'] from rfl,
                  List.cons_append, List.cons_append, List.nil_append,
                  parseStrBody, if_neg (by decide), if_pos rfl, parseEscSeq,
                  if_neg (by decide),
                  show escCharOf 't' = some '\t' from rfl]
                simp [ih]
              · by_cases h6 : c = '\x08'
                · subst h6
                  rw [show escapeChar '\x08' = ['\\', 'b'] from rfl,
                    List.cons_append, List.cons_append, List.nil_append,
                    parseStrBody, if_neg (by decide), if_pos rfl, parseEscSeq,
                    if_neg (by decide),
                    show escCharOf 'b' = some '\x08' from rfl]
                  simp [ih]
                · by_cases h7 : c = '\x0c'
                  · subst h7
                    rw [show escapeChar '\x0c' = ['\\', 'f'] from rfl,
                      List.cons_append, List.cons_append, List.nil_append,
                      parseStrBody, if_neg (by decide), if_pos rfl,
                      parseEscSeq, if_neg (by decide),
                      show escCharOf 'f' = some '\x0c' from rfl]
                    simp [ih]
                  · by_cases h8 : 0x20 ≤ c.toNat ∧ c.toNat ≤ 0x7e
                    · have hesc : escapeChar c = [c] := by
                        rw [escapeChar, if_neg h1, if_neg h2, if_neg h3,
                          if_neg h4, if_neg h5, if_neg h6, if_neg h7]
                        rw [if_pos (by simp [h8.1, h8.2])]
                      rw [hesc, List.cons_append, List.nil_append,
                        parseStrBody, if_neg h1, if_neg h2,
                        if_neg (by omega)]
                      simp [ih]
                    · by_cases h9 : c.toNat < 0x10000
                      · have hval : c.toNat < 0xd800 ∨
                            (0xe000 ≤ c.toNat ∧ c.toNat < 0x110000) := c.valid
                        have hesc : escapeChar c =
                            '\\' :: 'u' :: hex4 c.toNat := by
                          rw [escapeChar, if_neg h1, if_neg h2, if_neg h3,
                            if_neg h4, if_neg h5, if_neg h6, if_neg h7]
                          rw [if_neg (by simpa using h8), if_pos h9]
                        rw [hesc, hex4]
                        simp only [List.cons_append, List.nil_append]
                        rw [parseStrBody, if_neg (by decide), if_pos rfl,
                          parseEscSeq, if_pos rfl, parseU]
                        rw [hexVal4_hex4 c.toNat (by omega)]
                        dsimp only
                        have hs1 : (decide (0xd800 ≤ c.toNat) &&
                            decide (c.toNat < 0xdc00)) ≠ true := by
                          simp
                          omega
                        have hs2 : (decide (0xdc00 ≤ c.toNat) &&
                            decide (c.toNat < 0xe000)) ≠ true := by
                          simp
                          omega
                        rw [if_neg hs1, if_neg hs2, ih, Char.ofNat_toNat]
                        rfl
                      · have hval : c.toNat < 0xd800 ∨
                            (0xe000 ≤ c.toNat ∧ c.toNat < 0x110000) := c.valid
                        have hm : c.toNat - 0x10000 < 0x100000 := by omega
                        have hesc : escapeChar c =
                            ('\\' :: 'u' :: hex4 (0xd800 +
                              (c.toNat - 0x10000) / 0x400)) ++
                            ('\\' :: 'u' :: hex4 (0xdc00 +
                              (c.toNat - 0x10000) % 0x400)) := by
                          rw [escapeChar, if_neg h1, if_neg h2, if_neg h3,
                            if_neg h4, if_neg h5, if_neg h6, if_neg h7]
                          rw [if_neg (by simpa using h8), if_neg h9]
                        rw [hesc, hex4, hex4]
                        simp only [List.cons_append, List.nil_append,
                          List.append_assoc]
                        rw [parseStrBody, if_neg (by decide), if_pos rfl,
                          parseEscSeq, if_pos rfl, parseU]
                        rw [hexVal4_hex4 _ (by omega)]
                        dsimp only
                        have hs1 : (decide (0xd800 ≤ 0xd800 +
                            (c.toNat - 0x10000) / 0x400) &&
                            decide (0xd800 + (c.toNat - 0x10000) / 0x400 <
                              0xdc00)) = true := by
                          simp
                          omega
                        rw [if_pos hs1, parseLowSur, if_pos (by decide),
                          hexVal4_hex4 _ (by omega)]
                        dsimp only
                        have hs2 : (decide (0xdc00 ≤ 0xdc00 +
                            (c.toNat - 0x10000) % 0x400) &&
                            decide (0xdc00 + (c.toNat - 0x10000) % 0x400 <
                              0xe000)) = true := by
                          simp
                          omega
                        rw [if_pos hs2, ih]
                        have harg : 0x10000 +
                            (0xd800 + (c.toNat - 0x10000) / 0x400 - 0xd800) *
                              0x400 +
                            (0xdc00 + (c.toNat - 0x10000) % 0x400 - 0xdc00) =
                            c.toNat := by omega
                        rw [harg, Char.ofNat_toNat]
                        rfl

/-- Inserting a fresh key appends the member. -/
theorem insKV_append (acc : List (PyStr × JVal)) (k : PyStr) (v : JVal)
    (h : ∀ e ∈ acc, e.1 ≠ k) : insKV acc k v = acc ++ [(k, v)] := by
  induction acc with
  | nil => rfl
  | cons m ms ih =>
      obtain ⟨k', v'⟩ := m
      rw [insKV, if_neg (h (k', v') (by simp))]
      rw [ih (fun e he => h e (by simp [he]))]
      rfl

/-- Members of an insertion come from the inserted pair or the original
list (position aside). -/
theorem mem_insKV (acc : List (PyStr × JVal)) (k : PyStr) (v : JVal) :
    ∀ e ∈ insKV acc k v, (e.1 = k ∧ e.2 = v) ∨ e ∈ acc := by
  induction acc with
  | nil =>
      intro e he
      rw [insKV] at he
      rw [List.mem_singleton] at he
      exact Or.inl (by rw [he]; exact ⟨rfl, rfl⟩)
  | cons m ms ih =>
      obtain ⟨k', v'⟩ := m
      intro e he
      rw [insKV] at he
      by_cases hk : k' = k
      · rw [if_pos hk] at he
        rcases List.mem_cons.mp he with h1 | h1
        · exact Or.inl (by rw [h1, hk]; exact ⟨rfl, rfl⟩)
        · exact Or.inr (by simp [h1])
      · rw [if_neg hk] at he
        rcases List.mem_cons.mp he with h1 | h1
        · exact Or.inr (by simp [h1])
        · rcases ih e h1 with h2 | h2
          · exact Or.inl h2
          · exact Or.inr (by simp [h2])

/-- `noDupKeys` is key-list `Nodup`. -/
theorem noDupKeys_iff (l : List (PyStr × JVal)) :
    noDupKeys l = true ↔ (jKeys l).Nodup := by
  induction l with
  | nil => simp [noDupKeys, jKeys]
  | cons m ms ih =>
      rw [noDupKeys]
      simp only [Bool.and_eq_true, Bool.not_eq_true']
      rw [ih]
      simp only [jKeys, List.map_cons, List.nodup_cons]
      constructor
      · rintro ⟨h1, h2⟩
        refine ⟨fun hm => ?_, h2⟩
        rcases List.mem_map.mp hm with ⟨e, he, hk⟩
        have hany : ms.any (fun e => e.1 = m.1) = true :=
          List.any_eq_true.mpr ⟨e, he, by simp [hk]⟩
        rw [h1] at hany
        exact Bool.noConfusion hany
      · rintro ⟨h1, h2⟩
        refine ⟨?_, h2⟩
        cases hb : ms.any (fun e => e.1 = m.1) with
        | false => rfl
        | true =>
            exfalso
            rcases List.any_eq_true.mp hb with ⟨e, he, hk⟩
            exact h1 (List.mem_map.mpr ⟨e, he, by simpa using hk⟩)

/-- Folding Python dict insertion over fresh-keyed members is the
identity extension. -/
theorem foldl_insKV (kvs : List (PyStr × JVal)) : ∀ acc,
    (jKeys (acc ++ kvs)).Nodup →
    kvs.foldl (fun a m => insKV a m.1 m.2) acc = acc ++ kvs := by
  induction kvs with
  | nil => intro acc _; simp
  | cons m ms ih =>
      intro acc hnd
      obtain ⟨k, v⟩ := m
      have hkeys : jKeys (acc ++ (k, v) :: ms) =
          jKeys acc ++ k :: jKeys ms := by
        simp [jKeys]
      rw [hkeys] at hnd
      rcases List.nodup_append.mp hnd with ⟨h1', h2', hdisj⟩
      have hk : ∀ e ∈ acc, e.1 ≠ k := fun e he heq =>
        hdisj (List.mem_map.mpr ⟨e, he, heq⟩) (by simp)
      rw [List.foldl_cons]
      show List.foldl (fun a m => insKV a m.1 m.2) (insKV acc k v) ms =
        acc ++ (k, v) :: ms
      rw [insKV_append acc k v hk]
      have hnd2 : (jKeys ((acc ++ [(k, v)]) ++ ms)).Nodup := by
        have he : (acc ++ [(k, v)]) ++ ms = acc ++ (k, v) :: ms := by simp
        rw [he, hkeys]
        exact hnd
      rw [ih (acc ++ [(k, v)]) hnd2]
      simp

/-- On a duplicate-free member list, `objFromPairs` is the identity. -/
theorem objFromPairs_self (ms : List (PyStr × JVal))
    (h : noDupKeys ms = true) : objFromPairs ms = ms := by
  rw [objFromPairs]
  have h0 := foldl_insKV ms [] (by simpa using (noDupKeys_iff ms).mp h)
  simpa using h0

/-- Insertion preserves key distinctness. -/
theorem insKV_noDup (acc : List (PyStr × JVal)) (k : PyStr) (v : JVal)
    (h : noDupKeys acc = true) : noDupKeys (insKV acc k v) = true := by
  induction acc with
  | nil => rw [insKV]; rfl
  | cons m ms ih =>
      obtain ⟨k', v'⟩ := m
      rw [noDupKeys, Bool.and_eq_true, Bool.not_eq_true'] at h
      rw [insKV]
      by_cases hk : k' = k
      · rw [if_pos hk, noDupKeys]
        simp only [Bool.and_eq_true, Bool.not_eq_true']
        exact ⟨h.1, h.2⟩
      · rw [if_neg hk, noDupKeys]
        simp only [Bool.and_eq_true, Bool.not_eq_true']
        refine ⟨?_, ih h.2⟩
        cases hb : (insKV ms k v).any (fun e => e.1 = k') with
        | false => rfl
        | true =>
            exfalso
            rcases List.any_eq_true.mp hb with ⟨e, he, hke⟩
            rcases mem_insKV ms k v e he with h2 | h2
            · have hkk : k = k' := by
                have h3 := h2.1
                rw [h3] at hke
                simpa using hke
              exact hk hkk.symm
            · have hany : ms.any (fun e => e.1 = k') = true :=
                List.any_eq_true.mpr ⟨e, h2, hke⟩
              rw [h.1] at hany
              exact Bool.noConfusion hany

/-- `wfI` is elementwise well-formedness. -/
theorem wfI_iff (l : List JVal) : wfI l = true ↔ ∀ x ∈ l, wfV x = true := by
  induction l with
  | nil => simp [wfI]
  | cons x xs ih =>
      rw [wfI, Bool.and_eq_true, ih]
      constructor
      · rintro ⟨h1, h2⟩ y hy
        rcases List.mem_cons.mp hy with h3 | h3
        · rw [h3]; exact h1
        · exact h2 y h3
      · intro h
        exact ⟨h x (by simp), fun y hy => h y (by simp [hy])⟩

/-- `wfM` is valuewise well-formedness. -/
theorem wfM_iff (l : List (PyStr × JVal)) :
    wfM l = true ↔ ∀ m ∈ l, wfV m.2 = true := by
  induction l with
  | nil => simp [wfM]
  | cons x xs ih =>
      rw [wfM, Bool.and_eq_true, ih]
      constructor
      · rintro ⟨h1, h2⟩ y hy
        rcases List.mem_cons.mp hy with h3 | h3
        · rw [h3]; exact h1
        · exact h2 y h3
      · intro h
        exact ⟨h x (by simp), fun y hy => h y (by simp [hy])⟩

/-- `objFromPairs` keeps keys distinct and values well-formed. -/
theorem objFromPairs_wf (raw : List (PyStr × JVal))
    (h : ∀ m ∈ raw, wfV m.2 = true) :
    noDupKeys (objFromPairs raw) = true ∧
      wfM (objFromPairs raw) = true := by
  rw [objFromPairs]
  suffices hgen : ∀ acc, noDupKeys acc = true → wfM acc = true →
      noDupKeys (raw.foldl (fun a m => insKV a m.1 m.2) acc) = true ∧
        wfM (raw.foldl (fun a m => insKV a m.1 m.2) acc) = true by
    exact hgen [] rfl rfl
  induction raw with
  | nil => intro acc h1 h2; exact ⟨h1, h2⟩
  | cons m ms ih =>
      intro acc h1 h2
      rw [List.foldl_cons]
      refine ih (fun x hx => h x (by simp [hx])) (insKV acc m.1 m.2)
        (insKV_noDup acc m.1 m.2 h1) ?_
      rw [wfM_iff]
      intro e he
      rcases mem_insKV acc m.1 m.2 e he with h3 | h3
      · rw [h3.2]
        exact h m (by simp)
      · exact (wfM_iff acc).mp h2 e h3

/-- A digit head is not JSON whitespace nor a closing token. -/
theorem digit_head_facts (c : Char) (h : isDigitC c = true) :
    jsonWsC c = false ∧ c ≠ 'n' ∧ c ≠ 't' ∧ c ≠ 'f' ∧ c ≠ '"' ∧
      c ≠ '[' ∧ c ≠ '\x7b' ∧ c ≠ ']' ∧ c ≠ '\x7d' := by
  have hne : ∀ x : Char, isDigitC x = false → c ≠ x := by
    intro x hx he
    rw [he, hx] at h
    exact Bool.noConfusion h
  refine ⟨?_, hne 'n' (by decide), hne 't' (by decide), hne 'f' (by decide),
    hne '"' (by decide), hne '[' (by decide), hne '\x7b' (by decide),
    hne ']' (by decide), hne '\x7d' (by decide)⟩
  rw [jsonWsC]
  simp [hne ' ' (by decide), hne '\t' (by decide), hne '\n' (by decide),
    hne '\x0d' (by decide)]

/-- The first character of a printed value: never whitespace, never a
closing bracket or brace. -/
theorem dumpVal_head (d : Nat) (v : JVal) :
    ∃ c s, dumpVal d v = c :: s ∧ jsonWsC c = false ∧ c ≠ ']' ∧
      c ≠ '\x7d' := by
  cases v with
  | jnull => exact ⟨'n', pys "ull", by rw [dumpVal]; exact rfl, by decide,
      by decide, by decide⟩
  | jbool b =>
      cases b with
      | true => exact ⟨'t', pys "rue", by rw [dumpVal]; rfl, by decide,
          by decide, by decide⟩
      | false => exact ⟨'f', pys "alse", by rw [dumpVal]; rfl, by decide,
          by decide, by decide⟩
  | jint n =>
      rw [dumpVal, intDec]
      by_cases hn : n < 0
      · exact ⟨'-', natDigits n.natAbs, by rw [if_pos hn], by decide,
          by decide, by decide⟩
      · rw [if_neg hn]
        cases hd : natDigits n.natAbs with
        | nil => exact absurd hd (natDigits_ne_nil _)
        | cons c ds =>
            have hc := natDigits_all_digits n.natAbs c (by rw [hd]; simp)
            have hf := digit_head_facts c hc
            exact ⟨c, ds, rfl, hf.1, hf.2.2.2.2.2.2.2.1, hf.2.2.2.2.2.2.2.2⟩
  | jstr s =>
      exact ⟨'"', escBody s ++ ['"'], by rw [dumpVal, escStr], by decide,
        by decide, by decide⟩
  | jarr xs =>
      cases xs with
      | nil => exact ⟨'[', [']'], by rw [dumpVal]; rfl, by decide,
          by decide, by decide⟩
      | cons x xs' => exact ⟨'[', _, by rw [dumpVal], by decide,
          by decide, by decide⟩
  | jobj ms =>
      cases ms with
      | nil => exact ⟨'\x7b', ['\x7d'], by rw [dumpVal]; rfl, by decide,
          by decide, by decide⟩
      | cons m ms' => exact ⟨'\x7b', _, by rw [dumpVal], by decide,
          by decide, by decide⟩

/-- Every printed value is non-empty. -/
theorem dumpVal_len_pos (d : Nat) (v : JVal) : 0 < (dumpVal d v).length := by
  obtain ⟨c, s, he, _⟩ := dumpVal_head d v
  rw [he]
  simp

/-- Fuel requirements are positive. -/
theorem fneedV_pos (v : JVal) : 1 ≤ fneedV v := by
  cases v with
  | jarr xs => cases xs <;> rw [fneedV] <;> omega
  | jobj ms => cases ms <;> rw [fneedV] <;> omega
  | jnull => rw [fneedV]
  | jbool b => rw [fneedV]
  | jint n => rw [fneedV]
  | jstr s => rw [fneedV]

/-- Fuel requirement of non-empty item lists is positive. -/
theorem fneedI_pos (l : List JVal) : 1 ≤ fneedI l := by
  cases l <;> rw [fneedI] <;> omega

/-- Fuel requirement of non-empty member lists is positive. -/
theorem fneedM_pos (l : List (PyStr × JVal)) : 1 ≤ fneedM l := by
  cases l <;> rw [fneedM] <;> omega

mutual
/-- The fuel a value needs is at most its printed length. -/
theorem fneedV_le_len (d : Nat) : (v : JVal) →
    fneedV v ≤ (dumpVal d v).length
  | .jnull => by rw [fneedV, dumpVal]; decide
  | .jbool true => by rw [fneedV, dumpVal]; decide
  | .jbool false => by rw [fneedV, dumpVal]; decide
  | .jint n => by
      rw [fneedV, dumpVal]
      have hne : intDec n ≠ [] := by
        rw [intDec]
        split
        · simp
        · exact natDigits_ne_nil _
      have := List.length_pos.mpr hne
      omega
  | .jstr s => by
      rw [fneedV, dumpVal, escStr]
      simp
  | .jarr [] => by rw [fneedV, dumpVal]; decide
  | .jarr (x :: xs) => by
      rw [fneedV, dumpVal]
      have hI := fneedI_le_len d (x :: xs)
      simp only [List.length_cons, List.length_append]
      omega
  | .jobj [] => by rw [fneedV, dumpVal]; decide
  | .jobj (m :: ms) => by
      rw [fneedV, dumpVal]
      have hM := fneedM_le_len d (m :: ms)
      simp only [List.length_cons, List.length_append]
      omega

/-- The fuel an item list needs is at most its printed length plus one. -/
theorem fneedI_le_len (d : Nat) : (l : List JVal) →
    fneedI l ≤ (dumpItems d l).length + 1
  | [] => by rw [fneedI, dumpItems]; simp
  | [x] => by
      rw [fneedI, dumpItems]
      have h1 := fneedV_le_len (d + 1) x
      have h2 := dumpVal_len_pos (d + 1) x
      have hmax : max (fneedV x) (fneedI ([] : List JVal)) ≤
          (dumpVal (d + 1) x).length := by
        refine Nat.max_le.mpr ⟨h1, ?_⟩
        rw [fneedI]
        omega
      simp only [List.length_append]
      omega
  | x :: y :: ys => by
      rw [fneedI, dumpItems]
      have h1 := fneedV_le_len (d + 1) x
      have hI := fneedI_le_len d (y :: ys)
      have hmax : max (fneedV x) (fneedI (y :: ys)) ≤
          (dumpVal (d + 1) x).length + (dumpItems d (y :: ys)).length + 1 := by
        refine Nat.max_le.mpr ⟨by omega, by omega⟩
      simp only [List.length_append, List.length_cons]
      omega

/-- The fuel a member list needs is at most its printed length plus one. -/
theorem fneedM_le_len (d : Nat) : (ms : List (PyStr × JVal)) →
    fneedM ms ≤ (dumpMembers d ms).length + 1
  | [] => by rw [fneedM, dumpMembers]; simp
  | [(k, v)] => by
      rw [fneedM, dumpMembers]
      have h1 := fneedV_le_len (d + 1) v
      have h2 := dumpVal_len_pos (d + 1) v
      have hmax : max (fneedV (k, v).2) (fneedM ([] : List (PyStr × JVal))) ≤
          (dumpVal (d + 1) v).length := by
        refine Nat.max_le.mpr ⟨h1, ?_⟩
        rw [fneedM]
        omega
      simp only [List.length_append, List.length_cons]
      omega
  | (k, v) :: m :: ms => by
      rw [fneedM, dumpMembers]
      have h1 := fneedV_le_len (d + 1) v
      have hM := fneedM_le_len d (m :: ms)
      have hmax : max (fneedV (k, v).2) (fneedM (m :: ms)) ≤
          (dumpVal (d + 1) v).length + (dumpMembers d (m :: ms)).length +
            1 := by
        refine Nat.max_le.mpr ⟨le_trans h1 (by omega), by omega⟩
      simp only [List.length_append, List.length_cons]
      omega
end

/-- The head of a printed integer is a digit or a minus sign. -/
theorem intDec_head (n : Int) :
    ∃ c s, intDec n = c :: s ∧ (isDigitC c = true ∨ c = '-') := by
  rw [intDec]
  split
  · exact ⟨'-', natDigits n.natAbs, rfl, Or.inr rfl⟩
  · cases hd : natDigits n.natAbs with
    | nil => exact absurd hd (natDigits_ne_nil _)
    | cons c ds =>
        exact ⟨c, ds, rfl,
          Or.inl (natDigits_all_digits n.natAbs c (by rw [hd]; simp))⟩

/-- A number-token head is not whitespace and not any of the keyword,
string, array or object openers. -/
theorem num_head_facts (c : Char) (h : isDigitC c = true ∨ c = '-') :
    jsonWsC c = false ∧ c ≠ 'n' ∧ c ≠ 't' ∧ c ≠ 'f' ∧ c ≠ '"' ∧
      c ≠ '[' ∧ c ≠ '\x7b' := by
  rcases h with h | h
  · have hf := digit_head_facts c h
    exact ⟨hf.1, hf.2.1, hf.2.2.1, hf.2.2.2.1, hf.2.2.2.2.1,
      hf.2.2.2.2.2.1, hf.2.2.2.2.2.2.1⟩
  · rw [h]
    refine ⟨by decide, by decide, by decide, by decide, by decide,
      by decide, by decide⟩

/-- After the newline that follows an opening bracket, the scanner lands
on the head of the first printed item — never on a closing token. -/
theorem skipWs_dumpItems_head (d : Nat) (l : List JVal) (hl : l ≠ [])
    (after : PyStr) :
    ∃ c s, skipWs ('\n' :: (dumpItems d l ++ after)) = c :: s ∧
      c ≠ ']' ∧ c ≠ '\x7d' := by
  obtain ⟨x, xs, rfl⟩ := List.exists_cons_of_ne_nil hl
  obtain ⟨c, s, he, hc, h1, h2⟩ := dumpVal_head (d + 1) x
  have hx : ∃ tail, '\n' :: (dumpItems d (x :: xs) ++ after) =
      ('\n' :: jIndent (d + 1)) ++ (c :: tail) := by
    cases xs with
    | nil =>
        refine ⟨s ++ after, ?_⟩
        rw [dumpItems, he]
        simp
    | cons y ys =>
        refine ⟨s ++ (',' :: '\n' :: dumpItems d (y :: ys)) ++ after, ?_⟩
        rw [dumpItems, he]
        simp
  obtain ⟨tail, hx⟩ := hx
  refine ⟨c, tail, ?_, h1, h2⟩
  rw [hx, skipWs_ws_append, skipWs_cons_not_ws c _ hc]
  intro a ha
  rcases List.mem_cons.mp ha with h3 | h3
  · rw [h3]; rfl
  · exact jIndent_all_ws (d + 1) a h3

/-- After the newline that follows an opening brace, the scanner lands on
the opening quote of the first printed member key. -/
theorem skipWs_dumpMembers_head (d : Nat) (ms : List (PyStr × JVal))
    (hm : ms ≠ []) (after : PyStr) :
    ∃ s, skipWs ('\n' :: (dumpMembers d ms ++ after)) = '"' :: s := by
  obtain ⟨⟨k, v⟩, ms', rfl⟩ := List.exists_cons_of_ne_nil hm
  have hx : ∃ tail, '\n' :: (dumpMembers d ((k, v) :: ms') ++ after) =
      ('\n' :: jIndent (d + 1)) ++ ('"' :: tail) := by
    cases ms' with
    | nil =>
        refine ⟨(escBody k ++ ['"']) ++ (':' :: ' ' :: dumpVal (d + 1) v) ++
          after, ?_⟩
        rw [dumpMembers, escStr]
        simp
    | cons m2 ms2 =>
        refine ⟨(escBody k ++ ['"']) ++ (':' :: ' ' :: dumpVal (d + 1) v ++
          ',' :: '\n' :: dumpMembers d (m2 :: ms2)) ++ after, ?_⟩
        rw [dumpMembers, escStr]
        simp
  obtain ⟨tail, hx⟩ := hx
  refine ⟨tail, ?_⟩
  rw [hx, skipWs_ws_append, skipWs_cons_not_ws '"' _ (by decide)]
  intro a ha
  rcases List.mem_cons.mp ha with h3 | h3
  · rw [h3]; rfl
  · exact jIndent_all_ws (d + 1) a h3

/-- A newline followed by an indentation block is whitespace. -/
theorem allJWs_nl_indent (d : Nat) : allJWs ('\n' :: jIndent d) := by
  intro a ha
  rcases List.mem_cons.mp ha with h | h
  · rw [h]; rfl
  · exact jIndent_all_ws d a h

/-- A one-character whitespace run. -/
theorem allJWs_singleton (c : Char) (h : jsonWsC c = true) : allJWs [c] := by
  intro a ha
  rw [List.mem_singleton] at ha
  rw [ha]
  exact h

/-- A non-digit head satisfies `noDigHead`. -/
theorem noDigHead_cons (c : Char) (h : isDigitC c = false) (t : PyStr) :
    noDigHead (c :: t) := by
  intro a ha
  simp at ha
  rw [ha]
  exact h

/-- Scanning past the newline-plus-indent that precedes a closing token
stops at that token. -/
theorem skipWs_close (d : Nat) (c : Char) (hc : jsonWsC c = false)
    (rest : PyStr) :
    skipWs ('\n' :: (jIndent d ++ (c :: rest))) = c :: rest := by
  rw [show ('\n' :: (jIndent d ++ (c :: rest))) =
      ('\n' :: jIndent d) ++ (c :: rest) from by simp,
    skipWs_ws_append _ _ (allJWs_nl_indent d), skipWs_cons_not_ws c _ hc]

/-- `Option.bind` on a present value applies the continuation. -/
theorem obind_some {α β : Type} (a : α) (f : α → Option β) :
    Bind.bind (some a) f = f a := rfl


/-- `parseItems` factored through its named continuation. -/
theorem parseItems_succ (f : Nat) (s : PyStr) :
    parseItems (Nat.succ f) s = Bind.bind (parseVal f s) (piAfterVal f) := rfl

/-- `parseMembers` on a quote-headed input factored through its named
continuations. -/
theorem parseMembers_succ (f : Nat) (t : PyStr) :
    parseMembers (Nat.succ f) ('"' :: t) =
      Bind.bind (parseStrBody t) (pmAfterKey f) := rfl

/-- `parseMembers` ignores leading whitespace. -/
theorem parseMembers_ws (f : Nat) (w t : PyStr) (hw : allJWs w) :
    parseMembers (Nat.succ f) (w ++ t) = parseMembers (Nat.succ f) t := by
  conv_lhs => rw [parseMembers, skipWs_ws_append _ _ hw]
  conv_rhs => rw [parseMembers]

/-- After an item value, newline-indent-bracket closes the item list. -/
theorem piAfterVal_close (f : Nat) (v : JVal) (d : Nat) (rest : PyStr) :
    piAfterVal f (v, '\n' :: (jIndent d ++ (']' :: rest))) =
      some ([v], rest) := by
  rw [piAfterVal, skipWs_close d ']' (by decide) rest]
  rfl

/-- After an item value, a comma continues the item list. -/
theorem piAfterVal_comma (f : Nat) (v : JVal) (t : PyStr) :
    piAfterVal f (v, ',' :: t) =
      (parseItems f t).map (fun r => (v :: r.1, r.2)) := rfl

/-- After a member key, a colon hands over to the value parser. -/
theorem pmAfterKey_colon (f : Nat) (k : PyStr) (t : PyStr) :
    pmAfterKey f (k, ':' :: t) =
      Bind.bind (parseVal f t) (pmAfterVal f k) := rfl

/-- After a member value, newline-indent-brace closes the member list. -/
theorem pmAfterVal_close (f : Nat) (k : PyStr) (v : JVal) (d : Nat)
    (rest : PyStr) :
    pmAfterVal f k (v, '\n' :: (jIndent d ++ ('\x7d' :: rest))) =
      some ([(k, v)], rest) := by
  rw [pmAfterVal, skipWs_close d '\x7d' (by decide) rest]
  rfl

/-- After a member value, a comma continues the member list. -/
theorem pmAfterVal_comma (f : Nat) (k : PyStr) (v : JVal) (t : PyStr) :
    pmAfterVal f k (v, ',' :: t) =
      (parseMembers f t).map (fun r => ((k, v) :: r.1, r.2)) := rfl

/-- The fueled parser inverts the indent-2 printer: with enough fuel,
any well-formed printed value (item list, member list) parses back to
itself, leaving exactly the trailing input. -/
theorem parse_print (f : Nat) :
    (∀ v d w rest, wfV v = true → fneedV v ≤ f → allJWs w → noDigHead rest →
      parseVal f (w ++ (dumpVal d v ++ rest)) = some (v, rest)) ∧
    (∀ l d w rest, wfI l = true → fneedI l ≤ f → allJWs w → l ≠ [] →
      parseItems f (w ++ (dumpItems d l ++
        ('\n' :: (jIndent d ++ (']' :: rest))))) = some (l, rest)) ∧
    (∀ ms d w rest, wfM ms = true → fneedM ms ≤ f → allJWs w → ms ≠ [] →
      parseMembers f (w ++ (dumpMembers d ms ++
        ('\n' :: (jIndent d ++ ('\x7d' :: rest))))) = some (ms, rest)) := by
  induction f with
  | zero =>
      refine ⟨?_, ?_, ?_⟩
      · intro v d w rest _ hfuel _ _
        exact absurd hfuel (by have := fneedV_pos v; omega)
      · intro l d w rest _ hfuel _ _
        exact absurd hfuel (by have := fneedI_pos l; omega)
      · intro ms d w rest _ hfuel _ _
        exact absurd hfuel (by have := fneedM_pos ms; omega)
  | succ f ih =>
      obtain ⟨ihA, ihB, ihC⟩ := ih
      refine ⟨?_, ?_, ?_⟩
      · intro v d w rest hwf hfuel hw hnd
        cases v with
        | jnull =>
            have hx : dumpVal d JVal.jnull ++ rest =
                'n' :: 'u' :: 'l' :: 'l' :: rest := by
              rw [dumpVal]; rfl
            rw [parseVal, hx, skipWs_ws_append w _ hw,
              skipWs_cons_not_ws 'n' _ (by decide)]
            rfl
        | jbool b =>
            cases b with
            | true =>
                have hx : dumpVal d (JVal.jbool true) ++ rest =
                    't' :: 'r' :: 'u' :: 'e' :: rest := by
                  rw [dumpVal]; rfl
                rw [parseVal, hx, skipWs_ws_append w _ hw,
                  skipWs_cons_not_ws 't' _ (by decide)]
                rfl
            | false =>
                have hx : dumpVal d (JVal.jbool false) ++ rest =
                    'f' :: 'a' :: 'l' :: 's' :: 'e' :: rest := by
                  rw [dumpVal]; rfl
                rw [parseVal, hx, skipWs_ws_append w _ hw,
                  skipWs_cons_not_ws 'f' _ (by decide)]
                rfl
        | jint n =>
            obtain ⟨c0, s0, hi, hcd⟩ := intDec_head n
            have hfacts := num_head_facts c0 hcd
            have hx : dumpVal d (JVal.jint n) ++ rest = c0 :: (s0 ++ rest) := by
              rw [dumpVal, hi]; rfl
            rw [parseVal, hx, skipWs_ws_append w _ hw,
              skipWs_cons_not_ws c0 _ hfacts.1]
            dsimp only
            rw [if_neg hfacts.2.1, if_neg hfacts.2.2.1, if_neg hfacts.2.2.2.1,
              if_neg hfacts.2.2.2.2.1, if_neg hfacts.2.2.2.2.2.1,
              if_neg hfacts.2.2.2.2.2.2]
            have hit : parseIntTok (c0 :: (s0 ++ rest)) = some (n, rest) := by
              rw [show c0 :: (s0 ++ rest) = (c0 :: s0) ++ rest from rfl, ← hi]
              exact parseIntTok_intDec n rest hnd
            rw [hit]
            rfl
        | jstr s =>
            have hx : dumpVal d (JVal.jstr s) ++ rest =
                '"' :: (escBody s ++ ('"' :: rest)) := by
              rw [dumpVal, escStr]; simp
            rw [parseVal, hx, skipWs_ws_append w _ hw,
              skipWs_cons_not_ws '"' _ (by decide)]
            dsimp only
            rw [if_neg (by decide : ¬('"' : Char) = 'n'),
              if_neg (by decide : ¬('"' : Char) = 't'),
              if_neg (by decide : ¬('"' : Char) = 'f'), if_pos rfl,
              parseStrBody_round s rest]
            rfl
        | jarr xs =>
            cases xs with
            | nil =>
                have hx : dumpVal d (JVal.jarr []) ++ rest =
                    '[' :: ']' :: rest := by
                  rw [dumpVal]; rfl
                rw [parseVal, hx, skipWs_ws_append w _ hw,
                  skipWs_cons_not_ws '[' _ (by decide)]
                rfl
            | cons x xs' =>
                have hwfl : wfI (x :: xs') = true := by
                  rw [wfV] at hwf; exact hwf
                have hfl : fneedI (x :: xs') ≤ f := by
                  rw [fneedV] at hfuel; omega
                have hx : dumpVal d (JVal.jarr (x :: xs')) ++ rest =
                    '[' :: '\n' :: (dumpItems d (x :: xs') ++
                      ('\n' :: (jIndent d ++ (']' :: rest)))) := by
                  rw [dumpVal]; simp
                rw [parseVal, hx, skipWs_ws_append w _ hw,
                  skipWs_cons_not_ws '[' _ (by decide)]
                dsimp only
                rw [if_neg (by decide : ¬('[' : Char) = 'n'),
                  if_neg (by decide : ¬('[' : Char) = 't'),
                  if_neg (by decide : ¬('[' : Char) = 'f'),
                  if_neg (by decide : ¬('[' : Char) = '"'), if_pos rfl]
                obtain ⟨c1, t1, hsk1, hc1, _⟩ :=
                  skipWs_dumpItems_head d (x :: xs') (by simp)
                    ('\n' :: (jIndent d ++ (']' :: rest)))
                rw [hsk1, if_neg (by
                  simp only [List.head?_cons, Option.some.injEq]; exact hc1)]
                have hitems := ihB (x :: xs') d ['\n'] rest hwfl hfl
                  (allJWs_singleton '\n' rfl) (by simp)
                rw [List.singleton_append] at hitems
                rw [hitems]
                rfl
        | jobj ms =>
            cases ms with
            | nil =>
                have hx : dumpVal d (JVal.jobj []) ++ rest =
                    '\x7b' :: '\x7d' :: rest := by
                  rw [dumpVal]; rfl
                rw [parseVal, hx, skipWs_ws_append w _ hw,
                  skipWs_cons_not_ws '\x7b' _ (by decide)]
                rfl
            | cons m ms' =>
                have hdup : noDupKeys (m :: ms') = true := by
                  rw [wfV, Bool.and_eq_true] at hwf; exact hwf.1
                have hwfm : wfM (m :: ms') = true := by
                  rw [wfV, Bool.and_eq_true] at hwf; exact hwf.2
                have hfm : fneedM (m :: ms') ≤ f := by
                  rw [fneedV] at hfuel; omega
                have hx : dumpVal d (JVal.jobj (m :: ms')) ++ rest =
                    '\x7b' :: '\n' :: (dumpMembers d (m :: ms') ++
                      ('\n' :: (jIndent d ++ ('\x7d' :: rest)))) := by
                  rw [dumpVal]; simp
                rw [parseVal, hx, skipWs_ws_append w _ hw,
                  skipWs_cons_not_ws '\x7b' _ (by decide)]
                dsimp only
                rw [if_neg (by decide : ¬('\x7b' : Char) = 'n'),
                  if_neg (by decide : ¬('\x7b' : Char) = 't'),
                  if_neg (by decide : ¬('\x7b' : Char) = 'f'),
                  if_neg (by decide : ¬('\x7b' : Char) = '"'),
                  if_neg (by decide : ¬('\x7b' : Char) = '['), if_pos rfl]
                obtain ⟨t1, hsk1⟩ :=
                  skipWs_dumpMembers_head d (m :: ms') (by simp)
                    ('\n' :: (jIndent d ++ ('\x7d' :: rest)))
                rw [hsk1, if_neg (by
                  simp only [List.head?_cons, Option.some.injEq]; decide)]
                have hmem := ihC (m :: ms') d ['\n'] rest hwfm hfm
                  (allJWs_singleton '\n' rfl) (by simp)
                rw [List.singleton_append] at hmem
                rw [hmem]
                simp only [Option.map_some']
                rw [objFromPairs_self (m :: ms') hdup]
      · intro l d w rest hwfl hfl hw hne
        have hwInd : allJWs (w ++ jIndent (d + 1)) := by
          intro a ha
          rcases List.mem_append.mp ha with h | h
          · exact hw a h
          · exact jIndent_all_ws (d + 1) a h
        cases l with
        | nil => exact absurd rfl hne
        | cons x xs =>
            have hwfx : wfV x = true := by
              rw [wfI, Bool.and_eq_true] at hwfl; exact hwfl.1
            have hfx : fneedV x ≤ f := by
              rw [fneedI] at hfl
              have := Nat.le_max_left (fneedV x) (fneedI xs)
              omega
            cases xs with
            | nil =>
                have hshape : w ++ (dumpItems d [x] ++
                    ('\n' :: (jIndent d ++ (']' :: rest)))) =
                    (w ++ jIndent (d + 1)) ++ (dumpVal (d + 1) x ++
                      ('\n' :: (jIndent d ++ (']' :: rest)))) := by
                  rw [dumpItems]; simp
                have hval := ihA x (d + 1) (w ++ jIndent (d + 1))
                  ('\n' :: (jIndent d ++ (']' :: rest))) hwfx hfx hwInd
                  (noDigHead_cons '\n' (by decide) _)
                rw [parseItems_succ, hshape, hval, obind_some,
                  piAfterVal_close]
            | cons y ys =>
                have hwf2 : wfI (y :: ys) = true := by
                  rw [wfI, Bool.and_eq_true] at hwfl; exact hwfl.2
                have hf2 : fneedI (y :: ys) ≤ f := by
                  rw [fneedI] at hfl
                  have := Nat.le_max_right (fneedV x) (fneedI (y :: ys))
                  omega
                have hshape : w ++ (dumpItems d (x :: y :: ys) ++
                    ('\n' :: (jIndent d ++ (']' :: rest)))) =
                    (w ++ jIndent (d + 1)) ++ (dumpVal (d + 1) x ++
                      (',' :: ('\n' :: (dumpItems d (y :: ys) ++
                        ('\n' :: (jIndent d ++ (']' :: rest))))))) := by
                  rw [dumpItems]; simp
                have hval := ihA x (d + 1) (w ++ jIndent (d + 1))
                  (',' :: ('\n' :: (dumpItems d (y :: ys) ++
                    ('\n' :: (jIndent d ++ (']' :: rest)))))) hwfx hfx hwInd
                  (noDigHead_cons ',' (by decide) _)
                have hrec := ihB (y :: ys) d ['\n'] rest hwf2 hf2
                  (allJWs_singleton '\n' rfl) (by simp)
                rw [List.singleton_append] at hrec
                rw [parseItems_succ, hshape, hval, obind_some,
                  piAfterVal_comma, hrec]
                rfl
      · intro ms d w rest hwfm hfm hw hne
        have hwInd : allJWs (w ++ jIndent (d + 1)) := by
          intro a ha
          rcases List.mem_append.mp ha with h | h
          · exact hw a h
          · exact jIndent_all_ws (d + 1) a h
        cases ms with
        | nil => exact absurd rfl hne
        | cons m ms' =>
            obtain ⟨k, v⟩ := m
            have hwfv : wfV v = true := by
              rw [wfM, Bool.and_eq_true] at hwfm; exact hwfm.1
            have hfv : fneedV v ≤ f := by
              rw [fneedM] at hfm
              have hm := Nat.le_max_left (fneedV (k, v).2) (fneedM ms')
              have he : fneedV (k, v).2 = fneedV v := rfl
              omega
            cases ms' with
            | nil =>
                have hshape : w ++ (dumpMembers d [(k, v)] ++
                    ('\n' :: (jIndent d ++ ('\x7d' :: rest)))) =
                    (w ++ jIndent (d + 1)) ++ ('"' :: (escBody k ++
                      ('"' :: (':' :: (' ' :: (dumpVal (d + 1) v ++
                        ('\n' :: (jIndent d ++ ('\x7d' :: rest))))))))) := by
                  rw [dumpMembers, escStr]; simp
                have hval := ihA v (d + 1) [' ']
                  ('\n' :: (jIndent d ++ ('\x7d' :: rest))) hwfv hfv
                  (allJWs_singleton ' ' rfl)
                  (noDigHead_cons '\n' (by decide) _)
                rw [List.singleton_append] at hval
                rw [hshape, parseMembers_ws f _ _ hwInd, parseMembers_succ,
                  parseStrBody_round k _, obind_some, pmAfterKey_colon,
                  hval, obind_some, pmAfterVal_close]
            | cons m2 ms2 =>
                have hwf2 : wfM (m2 :: ms2) = true := by
                  rw [wfM, Bool.and_eq_true] at hwfm; exact hwfm.2
                have hf2 : fneedM (m2 :: ms2) ≤ f := by
                  rw [fneedM] at hfm
                  have hm := Nat.le_max_right (fneedV (k, v).2)
                    (fneedM (m2 :: ms2))
                  omega
                have hshape : w ++ (dumpMembers d ((k, v) :: m2 :: ms2) ++
                    ('\n' :: (jIndent d ++ ('\x7d' :: rest)))) =
                    (w ++ jIndent (d + 1)) ++ ('"' :: (escBody k ++
                      ('"' :: (':' :: (' ' :: (dumpVal (d + 1) v ++
                        (',' :: ('\n' :: (dumpMembers d (m2 :: ms2) ++
                          ('\n' :: (jIndent d ++
                            ('\x7d' :: rest)))))))))))) := by
                  rw [dumpMembers, escStr]; simp
                have hval := ihA v (d + 1) [' ']
                  (',' :: ('\n' :: (dumpMembers d (m2 :: ms2) ++
                    ('\n' :: (jIndent d ++ ('\x7d' :: rest)))))) hwfv hfv
                  (allJWs_singleton ' ' rfl)
                  (noDigHead_cons ',' (by decide) _)
                rw [List.singleton_append] at hval
                have hrec := ihC (m2 :: ms2) d ['\n'] rest hwf2 hf2
                  (allJWs_singleton '\n' rfl) (by simp)
                rw [List.singleton_append] at hrec
                rw [hshape, parseMembers_ws f _ _ hwInd, parseMembers_succ,
                  parseStrBody_round k _, obind_some, pmAfterKey_colon,
                  hval, obind_some, pmAfterVal_comma, hrec]
                rfl

/-- Everything the fueled parser returns is well-formed: object nodes it
builds go through `objFromPairs`, which keeps keys distinct. -/
theorem parse_wf (f : Nat) :
    (∀ s v r, parseVal f s = some (v, r) → wfV v = true) ∧
    (∀ s l r, parseItems f s = some (l, r) → wfI l = true) ∧
    (∀ s ms r, parseMembers f s = some (ms, r) → wfM ms = true) := by
  induction f with
  | zero =>
      refine ⟨?_, ?_, ?_⟩
      · intro s v r h
        rw [parseVal] at h
        exact Option.noConfusion h
      · intro s l r h
        rw [parseItems] at h
        exact Option.noConfusion h
      · intro s ms r h
        rw [parseMembers] at h
        exact Option.noConfusion h
  | succ f ih =>
      obtain ⟨ihA, ihB, ihC⟩ := ih
      refine ⟨?_, ?_, ?_⟩
      · intro s v r h
        rw [parseVal] at h
        cases hsk : skipWs s with
        | nil => rw [hsk] at h; exact Option.noConfusion h
        | cons c rest =>
            rw [hsk] at h
            dsimp only at h
            by_cases h1 : c = 'n'
            · rw [if_pos h1] at h
              split at h
              · injection h with h2
                injection h2 with h3 h4
                rw [← h3]
                rfl
              · exact Option.noConfusion h
            rw [if_neg h1] at h
            by_cases h2 : c = 't'
            · rw [if_pos h2] at h
              split at h
              · injection h with h3
                injection h3 with h4 h5
                rw [← h4]
                rfl
              · exact Option.noConfusion h
            rw [if_neg h2] at h
            by_cases h3 : c = 'f'
            · rw [if_pos h3] at h
              split at h
              · injection h with h4
                injection h4 with h5 h6
                rw [← h5]
                rfl
              · exact Option.noConfusion h
            rw [if_neg h3] at h
            by_cases h4 : c = '"'
            · rw [if_pos h4] at h
              cases hp : parseStrBody rest with
              | none => rw [hp] at h; exact Option.noConfusion h
              | some p =>
                  rw [hp, Option.map_some'] at h
                  injection h with h5
                  injection h5 with h6 h7
                  rw [← h6]
                  rfl
            rw [if_neg h4] at h
            by_cases h5 : c = '['
            · rw [if_pos h5] at h
              split at h
              · injection h with h6
                injection h6 with h7 h8
                rw [← h7]
                rfl
              · cases hp : parseItems f rest with
                | none => rw [hp] at h; exact Option.noConfusion h
                | some p =>
                    obtain ⟨pl, ps⟩ := p
                    rw [hp, Option.map_some'] at h
                    injection h with h6
                    injection h6 with h7 h8
                    rw [← h7, wfV]
                    exact ihB rest pl ps hp
            rw [if_neg h5] at h
            by_cases h6 : c = '\x7b'
            · rw [if_pos h6] at h
              split at h
              · injection h with h7
                injection h7 with h8 h9
                rw [← h8]
                rfl
              · cases hp : parseMembers f rest with
                | none => rw [hp] at h; exact Option.noConfusion h
                | some p =>
                    obtain ⟨pm, ps⟩ := p
                    rw [hp, Option.map_some'] at h
                    injection h with h7
                    injection h7 with h8 h9
                    have hraw := ihC rest pm ps hp
                    have hobj := objFromPairs_wf pm ((wfM_iff pm).mp hraw)
                    rw [← h8, wfV, Bool.and_eq_true]
                    exact ⟨hobj.1, hobj.2⟩
            rw [if_neg h6] at h
            cases hp : parseIntTok (c :: rest) with
            | none => rw [hp] at h; exact Option.noConfusion h
            | some p =>
                rw [hp, Option.map_some'] at h
                injection h with h7
                injection h7 with h8 h9
                rw [← h8]
                rfl
      · intro s l r h
        rw [parseItems_succ] at h
        cases hp : parseVal f s with
        | none => rw [hp] at h; exact Option.noConfusion h
        | some p =>
            obtain ⟨pv, ps⟩ := p
            rw [hp, obind_some, piAfterVal] at h
            split at h
            · cases hpi : parseItems f _ with
              | none => rw [hpi] at h; exact Option.noConfusion h
              | some q =>
                  obtain ⟨ql, qs⟩ := q
                  rw [hpi, Option.map_some'] at h
                  injection h with h2
                  injection h2 with h3 h4
                  rw [← h3, wfI, Bool.and_eq_true]
                  exact ⟨ihA s pv ps hp, ihB _ ql qs hpi⟩
            · injection h with h2
              injection h2 with h3 h4
              rw [← h3, wfI, Bool.and_eq_true]
              exact ⟨ihA s pv ps hp, rfl⟩
            · exact Option.noConfusion h
      · intro s ms r h
        rw [parseMembers] at h
        split at h
        · rename_i rest hq
          cases hps : parseStrBody rest with
          | none => rw [hps] at h; exact Option.noConfusion h
          | some rk =>
              obtain ⟨kk, ks⟩ := rk
              rw [hps, obind_some] at h
              dsimp only at h
              split at h
              · rename_i rest2 hcolon
                cases hpv : parseVal f rest2 with
                | none => rw [hpv] at h; exact Option.noConfusion h
                | some rv =>
                    obtain ⟨vv, vs⟩ := rv
                    rw [hpv, obind_some] at h
                    dsimp only at h
                    split at h
                    · cases hpm : parseMembers f _ with
                      | none => rw [hpm] at h; exact Option.noConfusion h
                      | some q =>
                          obtain ⟨qm, qs⟩ := q
                          rw [hpm, Option.map_some'] at h
                          injection h with h2
                          injection h2 with h3 h4
                          rw [← h3, wfM, Bool.and_eq_true]
                          exact ⟨ihA rest2 vv vs hpv, ihC _ qm qs hpm⟩
                    · injection h with h2
                      injection h2 with h3 h4
                      rw [← h3, wfM, Bool.and_eq_true]
                      exact ⟨ihA rest2 vv vs hpv, rfl⟩
                    · exact Option.noConfusion h
              · exact Option.noConfusion h
        · exact Option.noConfusion h

/-- Every value `pyJsonLoads` produces is well-formed. -/
theorem pyJsonLoads_wf (s : PyStr) (v : JVal) (h : pyJsonLoads s = some v) :
    wfV v = true := by
  rw [pyJsonLoads] at h
  cases hp : parseVal (s.length + 1) s with
  | none => rw [hp] at h; exact Option.noConfusion h
  | some r =>
      obtain ⟨rv, rs⟩ := r
      rw [hp] at h
      dsimp only at h
      split at h
      · injection h with h2
        rw [← h2]
        exact (parse_wf (s.length + 1)).1 s rv rs hp
      · exact Option.noConfusion h

/-- `json.loads` inverts `json.dumps(·, indent=2)` on well-formed
values. -/
theorem pyJsonLoads_dumps2 (v : JVal) (hwf : wfV v = true) :
    pyJsonLoads (dumps2 v) = some v := by
  have hlen : fneedV v ≤ (dumps2 v).length + 1 := by
    have := fneedV_le_len 0 v
    rw [dumps2]
    omega
  have hparse := (parse_print ((dumps2 v).length + 1)).1 v 0 [] [] hwf hlen
    (by intro c hc; exact absurd hc (List.not_mem_nil c))
    (by intro c hc; simp at hc)
  rw [List.nil_append, List.append_nil] at hparse
  rw [show dumpVal 0 v = dumps2 v from rfl] at hparse
  rw [pyJsonLoads, hparse]
  rfl

/-- C8: for every string `data` that parses as JSON,
`convert_data(data, "json", "json")` succeeds, and parsing its `result`
field as JSON yields a value structurally equal to parsing the input. -/
theorem c8_convert_roundtrip (data : PyStr) (v : JVal)
    (h : pyJsonLoads data = some v) :
    List.lookup "success" (convert_data data (pys "json") (pys "json")) =
      some (PyVal.vBool true) ∧
    ∃ res,
      List.lookup "result" (convert_data data (pys "json") (pys "json")) =
        some (PyVal.vStr res) ∧ pyJsonLoads res = some v := by
  refine ⟨?_, dumps2 v, ?_, pyJsonLoads_dumps2 v (pyJsonLoads_wf data v h)⟩
  · unfold convert_data
    rw [h]
    rfl
  · unfold convert_data
    rw [h]
    rfl

unseal parseStrBody parseEscSeq parseU parseLowSur natDigits in
/-- C8 witness: the round trip at a concrete array-of-object document. -/
theorem c8_convert_roundtrip_witness :
    pyJsonLoads (pys "[1, \x7b\"a\": null\x7d]") =
      some (JVal.jarr [JVal.jint 1, JVal.jobj [(pys "a", JVal.jnull)]]) ∧
    (List.lookup "success" (convert_data (pys "[1, \x7b\"a\": null\x7d]")
        (pys "json") (pys "json")) = some (PyVal.vBool true) ∧
     ∃ res,
       List.lookup "result" (convert_data (pys "[1, \x7b\"a\": null\x7d]")
         (pys "json") (pys "json")) = some (PyVal.vStr res) ∧
       pyJsonLoads res = some (JVal.jarr [JVal.jint 1,
         JVal.jobj [(pys "a", JVal.jnull)]])) :=
  ⟨by rfl, c8_convert_roundtrip _ _ (by rfl)⟩

/-- Error envelopes are well-formed. -/
theorem wf_errEnv (m : PyStr) : wellFormedEnv (errEnv m) := Or.inl ⟨m, rfl⟩

/-- C1 counterexample: `get_system_info` has no `try`/`except`, so when
the current-directory lookup raises (as `os.getcwd` does after the
working directory has been deleted), the exception propagates out of the
handler instead of being reported as an error envelope. -/
theorem c1_counterexample :
    get_system_info
      { platformSystem := pys "Linux", platformVersion := pys "6.1",
        machine := pys "x86_64", processor := pys "x86_64",
        pythonVersion := pys "3.12.0",
        cwd := Except.error (pys "[Errno 2] No such file or directory"),
        home := Except.ok (pys "/root"),
        environ := [] } =
      Except.error (pys "[Errno 2] No such file or directory") := rfl

/-- C1 (amended): every handler except `get_system_info` returns, on any
well-typed input, an envelope holding exactly one of a success payload or
a single `error` key; `get_system_info` returns such an envelope when its
directory lookups succeed, and otherwise the exception propagates. -/
theorem c1_amended
    (fs : FS) (root p : FPath)
    (pattern query file_type text format_type command working_directory
      name start_time end_time fmt timezone data from_format to_format
      content : PyStr)
    (overwrite : Bool) (now : Int) (fmtTime : Int → PyStr)
    (res : CmdResult) (env : EnvVars)
    (strp : PyStr → PyStr → Option PyDateTime)
    (nowDt : PyDateTime) (epoch : ℚ) (o : SysOracle) (c hm : PyStr)
    (hc : o.cwd = Except.ok c) (hh : o.home = Except.ok hm) :
    wellFormedEnv (list_files fs root pattern) ∧
    wellFormedEnv (search_files fs root query file_type fmtTime) ∧
    wellFormedEnv ((create_file fs p content overwrite now fmtTime).2) ∧
    wellFormedEnv (run_command command working_directory res) ∧
    wellFormedEnv (get_environment_variable env name) ∧
    wellFormedEnv (get_current_time nowDt epoch timezone) ∧
    wellFormedEnv (calculate_time_difference start_time end_time fmt strp) ∧
    wellFormedEnv (count_words text) ∧
    wellFormedEnv (format_text text format_type) ∧
    wellFormedEnv (convert_data data from_format to_format) ∧
    (∃ e, get_system_info o = Except.ok e ∧ wellFormedEnv e) := by
  refine ⟨?_, ?_, ?_, ?_, ?_, ?_, ?_, ?_, ?_, ?_, ?_⟩
  · unfold list_files
    split
    · exact wf_errEnv _
    · split
      · exact Or.inr ⟨rfl, fun hx => List.noConfusion hx⟩
      · exact wf_errEnv _
  · simp only [search_files]
    split
    · exact wf_errEnv _
    · split
      · exact Or.inr ⟨rfl, fun hx => List.noConfusion hx⟩
      · exact wf_errEnv _
  · unfold create_file
    split
    · exact wf_errEnv _
    · split
      · exact wf_errEnv _
      · split
        · exact wf_errEnv _
        · exact Or.inr ⟨rfl, fun hx => List.noConfusion hx⟩
  · cases res with
    | timeout => exact wf_errEnv _
    | exc m => exact wf_errEnv _
    | done rc out err => exact Or.inr ⟨rfl, fun hx => List.noConfusion hx⟩
  · exact Or.inr ⟨rfl, fun hx => List.noConfusion hx⟩
  · exact Or.inr ⟨rfl, fun hx => List.noConfusion hx⟩
  · simp only [calculate_time_difference]
    split
    · split
      · exact Or.inr ⟨rfl, fun hx => List.noConfusion hx⟩
      · exact wf_errEnv _
    · exact wf_errEnv _
  · exact Or.inr ⟨rfl, fun hx => List.noConfusion hx⟩
  · exact Or.inr ⟨rfl, fun hx => List.noConfusion hx⟩
  · unfold convert_data
    split
    · split
      · split
        · exact Or.inr ⟨rfl, fun hx => List.noConfusion hx⟩
        · split
          · exact Or.inr ⟨rfl, fun hx => List.noConfusion hx⟩
          · exact wf_errEnv _
      · exact wf_errEnv _
    · exact wf_errEnv _
  · refine ⟨[("platform", PyVal.vStr o.platformSystem),
      ("platform_version", PyVal.vStr o.platformVersion),
      ("architecture", PyVal.vStr o.machine),
      ("processor", PyVal.vStr o.processor),
      ("python_version", PyVal.vStr o.pythonVersion),
      ("current_directory", PyVal.vStr c),
      ("home_directory", PyVal.vStr hm),
      ("environment_variables",
        PyVal.vDict (o.environ.map (fun e => (e.1, PyVal.vStr e.2))))],
      ?_, Or.inr ⟨rfl, fun hx => List.noConfusion hx⟩⟩
    unfold get_system_info
    rw [hc, hh]
    rfl

/-- C1 witness: the amended statement at concrete inputs, with both
directory lookups succeeding. -/
theorem c1_amended_witness :
    wellFormedEnv (list_files [([], FNode.dir)] [] (pys "*")) ∧
    wellFormedEnv (search_files [([], FNode.dir)] [] (pys "a") (pys "*")
      (fun _ => pys "t")) ∧
    wellFormedEnv ((create_file [([], FNode.dir)] [pys "a"] (pys "x") false 0
      (fun _ => pys "t")).2) ∧
    wellFormedEnv (run_command (pys "ls") (pys ".")
      (CmdResult.done 0 (pys "out") (pys ""))) ∧
    wellFormedEnv (get_environment_variable [] (pys "HOME")) ∧
    wellFormedEnv (get_current_time
      { year := 2024, month := 1, day := 1, hour := 0, minute := 0,
        second := 0, micro := 0, off := none } 0 (pys "local")) ∧
    wellFormedEnv (calculate_time_difference (pys "2024-01-01")
      (pys "2024-01-02") (pys "iso") (fun _ _ => none)) ∧
    wellFormedEnv (count_words (pys "hello world")) ∧
    wellFormedEnv (format_text (pys "hello world") (pys "clean")) ∧
    wellFormedEnv (convert_data (pys "null") (pys "json") (pys "json")) ∧
    (∃ e, get_system_info
      { platformSystem := pys "Linux", platformVersion := pys "6.1",
        machine := pys "x86_64", processor := pys "x86_64",
        pythonVersion := pys "3.12.0",
        cwd := Except.ok (pys "/tmp"),
        home := Except.ok (pys "/root"),
        environ := [] } = Except.ok e ∧ wellFormedEnv e) :=
  c1_amended [([], FNode.dir)] [] [pys "a"] (pys "*") (pys "a") (pys "*")
    (pys "hello world") (pys "clean") (pys "ls") (pys ".") (pys "HOME")
    (pys "2024-01-01") (pys "2024-01-02") (pys "iso") (pys "local")
    (pys "null") (pys "json") (pys "json") (pys "x") false 0
    (fun _ => pys "t") (CmdResult.done 0 (pys "out") (pys "")) []
    (fun _ _ => none)
    { year := 2024, month := 1, day := 1, hour := 0, minute := 0,
      second := 0, micro := 0, off := none } 0
    { platformSystem := pys "Linux", platformVersion := pys "6.1",
      machine := pys "x86_64", processor := pys "x86_64",
      pythonVersion := pys "3.12.0",
      cwd := Except.ok (pys "/tmp"),
      home := Except.ok (pys "/root"),
      environ := [] } (pys "/tmp") (pys "/root") rfl rfl
